import Mathlib

/-!
Shallow embedding, in Lean 4, of the core document pipeline of the
JSON_Validaiton repository (PDF → JSON extraction in `pdf_to_json.py` and
JSON → PDF reconstruction in `json_to_pdf.py`), together with theorems that
settle the frozen specification claims about that code.

Modelling conventions:
* Python floats (page coordinates, font sizes) are modelled as exact
  rationals `ℚ`; all comparisons in the source are order comparisons, which
  `ℚ` reproduces faithfully for the representable inputs.
* Python strings are modelled as `String` / `List Char` on the extraction
  side.  `clean_text_for_pdf` (reconstruction side) is modelled over
  `List Nat` of Unicode code points, because Python strings may carry lone
  surrogate code points which Lean `Char` cannot represent.
* Regex character classes are modelled at the granularity the claims need:
  `\s` as the set of whitespace code points of the Unicode database, `\w`
  as ASCII alphanumerics plus underscore.
* Fallible external calls (OCR) are modelled as an `Except` input; file
  system writes and raster image generation are I/O and are not modelled
  (no claim depends on them).
-/

namespace JsonVal

/-! ## Geometry -/

/-- Axis-aligned bounding box `(x0, y0, x1, y1)` in page coordinates. -/
structure BBox where
  x0 : ℚ
  y0 : ℚ
  x1 : ℚ
  y1 : ℚ
deriving DecidableEq, Repr

/-- `PDFExtractor._is_inside_bbox`: the first box lies fully inside the
second box. -/
def isInsideBbox (t r : BBox) : Bool :=
  decide (t.x0 ≥ r.x0) && decide (t.x1 ≤ r.x1) && decide (t.y0 ≥ r.y0) && decide (t.y1 ≤ r.y1)

/-! ## Python string and list primitives -/

/-- Whitespace test for a Unicode code point, matching what Python's
`re` module `\s` class and `str.strip()` accept (the White_Space code
points of the Unicode database). -/
def pyIsSpaceCode (c : Nat) : Bool :=
  c = 9 || c = 10 || c = 11 || c = 12 || c = 13 || c = 28 || c = 29 || c = 30 ||
  c = 31 || c = 32 || c = 133 || c = 160 || c = 5760 ||
  (8192 ≤ c && c ≤ 8202) || c = 8232 || c = 8233 || c = 8239 || c = 8287 || c = 12288

/-- Whitespace test on `Char`, via the code-point test. -/
def pyIsSpace (c : Char) : Bool := pyIsSpaceCode c.toNat

/-- Python `abs` on rationals, written so that it evaluates by kernel
reduction (it equals mathlib's `|q|`, see `absQ_eq`). -/
def absQ (q : ℚ) : ℚ := if q < 0 then -q else q

/-- Strip leading elements satisfying `p` (left half of Python `strip`). -/
def stripLead (p : α → Bool) (l : List α) : List α := l.dropWhile p

/-- Strip trailing elements satisfying `p` (right half of Python `strip`). -/
def stripTrail (p : α → Bool) : List α → List α
  | [] => []
  | a :: as =>
    let r := stripTrail p as
    if r.isEmpty && p a then [] else a :: r

/-- Python `strip`: drop the leading and trailing run of elements
satisfying `p`. -/
def stripBoth (p : α → Bool) (l : List α) : List α := stripTrail p (stripLead p l)

/-- Worker for `collapseRuns`; the flag records whether the previous
element was part of a run being collapsed. -/
def collapseAux (p : α → Bool) (rep : α) : Bool → List α → List α
  | _, [] => []
  | true, a :: as =>
    if p a then collapseAux p rep true as
    else a :: collapseAux p rep false as
  | false, a :: as =>
    if p a then rep :: collapseAux p rep true as
    else a :: collapseAux p rep false as

/-- Python `re.sub` of the pattern "one or more elements satisfying `p`"
by the single element `rep`: every maximal run of `p`-elements becomes one
`rep`. -/
def collapseRuns (p : α → Bool) (rep : α) (l : List α) : List α :=
  collapseAux p rep false l

/-- Python `str.strip()` on a character list. -/
def pyStripChars (l : List Char) : List Char := stripBoth pyIsSpace l

/-- Python `str.strip()` on a `String`. -/
def pyStrip (s : String) : String := String.mk (pyStripChars s.data)

/-- Python `min(xs, key)` with a strict comparison `lt` on keys: the fold
replaces the current best only on a strictly smaller key, so the first
minimum wins.  Returns `none` on an empty list (where Python raises). -/
def pyMinBy (key : α → κ) (lt : κ → κ → Bool) : List α → Option α
  | [] => none
  | a :: as => some (as.foldl (fun best c => if lt (key c) (key best) then c else best) a)

/-- Python `max(xs, key)`: first maximum wins (replace only on strictly
greater key). -/
def pyMaxBy (key : α → κ) (lt : κ → κ → Bool) : List α → Option α
  | [] => none
  | a :: as => some (as.foldl (fun best c => if lt (key best) (key c) then c else best) a)

/-- Stable insertion of `a` in front of the first element not below it;
together with `stableSort` this models Python's stable `list.sort`. -/
def stableInsert (le : α → α → Bool) (a : α) : List α → List α
  | [] => [a]
  | b :: bs => if le a b then a :: b :: bs else b :: stableInsert le a bs

/-- Stable sort by insertion, modelling Python `list.sort(key=...)`
(`le` must be the total preorder induced by the key). -/
def stableSort (le : α → α → Bool) : List α → List α
  | [] => []
  | a :: as => stableInsert le a (stableSort le as)

/-- Python `round(q, 1)` (banker's rounding to one decimal digit). -/
def pyRound1 (q : ℚ) : ℚ :=
  let x : ℚ := 10 * q
  let f : ℤ := ⌊x⌋
  (if x - (f : ℚ) = 1/2 then (if f % 2 = 0 then f else f + 1) else round x : ℤ) / 10

/-! ## Table data cleaning and classification (`pdf_to_json.py`) -/

/-- `PDFExtractor._clean_table_data`: drop `None` cells and cells that are
empty after stripping, keep the stripped text of the rest, and drop rows
that become fully empty.  A `None` cell from `pdfplumber` is `none`. -/
def cleanTableData (raw : List (List (Option String))) : List (List String) :=
  (raw.map (fun row =>
    row.filterMap (fun cell =>
      match cell with
      | none => none
      | some s => let t := pyStrip s; if t = "" then none else some t))).filter
    (fun row => !row.isEmpty)

/-- The tagged-variant result of `PDFExtractor._optimize_table_structure`
(the Python function returns a dict with a "type" tag; the constructor is
the tag, the arguments the payload). -/
inductive StructuredTableData where
  | empty : StructuredTableData
  | keyValue (pairs : List (String × String)) : StructuredTableData
  | headeredGrid (headers : List String) (rows : List (List String)) : StructuredTableData
  | singleRow (cells : List String) : StructuredTableData
deriving DecidableEq, Repr

/-- Maximum row width of a grid, as `max(len(row) for row in raw_data)`. -/
def maxCols (raw : List (List String)) : Nat :=
  (raw.map List.length).foldl max 0

/-- The key/value pair a row contributes in the two-column branch of
`_optimize_table_structure`: two or more cells give `(row[0], row[1])`,
a single cell gives `(row[0], "")`. -/
def rowPair : List String → Option (String × String)
  | a :: b :: _ => some (a, b)
  | [a] => some (a, "")
  | [] => none

/-- `PDFExtractor._optimize_table_structure` on the cleaned grid:
an empty grid is `empty`; a grid of maximum width 2 is `keyValue`;
otherwise two or more rows give `headeredGrid` (first row as headers)
and a single row gives `singleRow`. -/
def optimizeTableStructure (raw : List (List String)) : StructuredTableData :=
  match raw with
  | [] => .empty
  | r0 :: rest =>
    if maxCols (r0 :: rest) = 2 then
      .keyValue ((r0 :: rest).filterMap rowPair)
    else if rest.isEmpty then
      .singleRow r0
    else
      .headeredGrid r0 rest

/-- Variant discriminators for `StructuredTableData`. -/
def StructuredTableData.isKeyValue : StructuredTableData → Bool
  | .keyValue _ => true
  | _ => false

def StructuredTableData.isHeaderedGrid : StructuredTableData → Bool
  | .headeredGrid _ _ => true
  | _ => false

def StructuredTableData.isSingleRow : StructuredTableData → Bool
  | .singleRow _ => true
  | _ => false

/-! ## Text block assembly (`pdf_to_json.py`, `extract_text_enhanced`) -/

/-- A text span of the `rawdict` page representation (`fitz` input). -/
structure Span where
  text : String
  bbox : BBox
  font : String
  size : ℚ
  flags : Nat
deriving DecidableEq, Repr

/-- A line of a `rawdict` block. -/
structure RawLine where
  bbox : BBox
  spans : List Span
deriving DecidableEq, Repr

/-- A `rawdict` block (`type = 0` is a text block). -/
structure RawBlock where
  type : Nat
  bbox : BBox
  lines : List RawLine
deriving DecidableEq, Repr

/-- An assembled text block of a page, as stored in `text_blocks`. -/
structure TextBlock where
  id : String
  text : String
  x0 : ℚ
  y0 : ℚ
  x1 : ℚ
  y1 : ℚ
  font : String
  is_bold : Bool
  size : ℚ
  spans : List Span
  level : Nat
  parent_id : Option String
  whitespace_info : List (Nat × String)
deriving DecidableEq, Repr

/-- Whitespace positions recorded for a span text: `{"position": i,
"type": "tab" | "space"}` for every space or tab character. -/
def spanWhitespace (text : List Char) : List (Nat × String) :=
  text.enum.filterMap (fun ic =>
    if ic.2 = '\t' then some (ic.1, "tab")
    else if ic.2 = ' ' then some (ic.1, "space") else none)

/-- Substring test on character lists (Python `in` on strings). -/
def containsSub (needle hay : List Char) : Bool :=
  hay.tails.any (fun t => needle.isPrefixOf t)

/-- `PDFExtractor._get_main_font`: per-font character counts in span
order of first occurrence (a `defaultdict` iterated in insertion order),
then the first font attaining the maximal count; `"Unknown"` when there
are no spans. -/
def getMainFont (spansInfo : List Span) : String :=
  let counts := spansInfo.foldl (fun acc s =>
    if acc.any (fun fc => fc.1 = s.font) then
      acc.map (fun fc => if fc.1 = s.font then (fc.1, fc.2 + s.text.length) else fc)
    else acc ++ [(s.font, s.text.length)]) ([] : List (String × Nat))
  match pyMaxBy (fun fc => fc.2) (fun a b => decide (a < b)) counts with
  | some fc => fc.1
  | none => "Unknown"

/-- `PDFExtractor._check_bold`: some span has the bold flag bit (16) set
or "bold" inside its lower-cased font name. -/
def checkBold (spansInfo : List Span) : Bool :=
  spansInfo.any (fun s =>
    (s.flags &&& 16) ≠ 0 || containsSub "bold".data (s.font.data.map Char.toLower))

/-- `PDFExtractor._get_average_size`: character-weighted average font
size, defaulting to 10 for no spans or no characters. -/
def getAverageSize (spansInfo : List Span) : ℚ :=
  if spansInfo.isEmpty then 10
  else
    let totalSize := spansInfo.foldl (fun acc s => acc + s.size * (s.text.length : ℚ)) 0
    let totalChars := spansInfo.foldl (fun acc s => acc + s.text.length) (0 : Nat)
    if totalChars > 0 then totalSize / (totalChars : ℚ) else 10

/-- The non-empty-text spans of a line (the spans recorded into
`spans_info` while the line is processed). -/
def lineSpansInfo (l : RawLine) : List Span :=
  l.spans.filter (fun s => s.text ≠ "")

/-- The whitespace info accumulated while a line is processed. -/
def lineWhitespaceInfo (l : RawLine) : List (Nat × String) :=
  (lineSpansInfo l).foldl (fun acc s => acc ++ spanWhitespace s.text.data) []

/-- A line's merged text together with its bbox, or `none` when no span
has text (the line is then not recorded in `block_lines`). -/
def lineMerged (l : RawLine) : Option (String × BBox) :=
  let texts := (lineSpansInfo l).map (·.text)
  if texts.isEmpty then none else some (String.join texts, l.bbox)

/-- Merge the recorded lines of one block into the block text, inserting
a newline between consecutive lines whose vertical gap exceeds 2. -/
def mergeBlockLines : List (String × BBox) → String
  | [] => ""
  | [l] => l.1
  | l :: l2 :: rest =>
    l.1 ++ (if l2.2.y0 - l.2.y1 > 2 then "\n" else "") ++ mergeBlockLines (l2 :: rest)

/-- Assemble one raw block into a `TextBlock` (given the running block
index), or `none` when the block is skipped: not a text block, fully
inside a known table bbox, or without any recorded line.  Font, boldness
and size are computed from the spans of the block's last line, because the
source rebinds `spans_info` on every line iteration. -/
def assembleBlock (pageNum : Nat) (tableBboxes : List BBox) (idx : Nat)
    (b : RawBlock) : Option TextBlock :=
  if b.type ≠ 0 then none
  else if tableBboxes.any (fun tb => isInsideBbox b.bbox tb) then none
  else
    let blockLines := b.lines.filterMap lineMerged
    if blockLines.isEmpty then none
    else
      let lastSpans := match b.lines.getLast? with
        | some l => lineSpansInfo l
        | none => []
      let lastWs := match b.lines.getLast? with
        | some l => lineWhitespaceInfo l
        | none => []
      some {
        id := "text_" ++ toString pageNum ++ "_" ++ toString idx,
        text := mergeBlockLines blockLines,
        x0 := b.bbox.x0, y0 := b.bbox.y0, x1 := b.bbox.x1, y1 := b.bbox.y1,
        font := getMainFont lastSpans,
        is_bold := checkBold lastSpans,
        size := getAverageSize lastSpans,
        spans := lastSpans,
        level := 0,
        parent_id := none,
        whitespace_info := lastWs }

/-- The raw `text_blocks` list built by the main loop of
`extract_text_enhanced`: blocks in order, with `block_idx` incremented
only for blocks that are kept. -/
def assembleRawBlocks (pageNum : Nat) (tableBboxes : List BBox) :
    Nat → List RawBlock → List TextBlock
  | _, [] => []
  | idx, b :: rest =>
    match assembleBlock pageNum tableBboxes idx b with
    | some tb => tb :: assembleRawBlocks pageNum tableBboxes (idx + 1) rest
    | none => assembleRawBlocks pageNum tableBboxes idx rest

/-- Comparator for Python `sort(key=lambda b: (b.y0, b.x0))`. -/
def leYX (a b : TextBlock) : Bool :=
  decide (a.y0 < b.y0) || (decide (a.y0 = b.y0) && decide (a.x0 ≤ b.x0))

/-- Comparator for Python `sort(key=lambda b: b.x0)`. -/
def leX (a b : TextBlock) : Bool := decide (a.x0 ≤ b.x0)

/-- Comparator for the final sort of `extract_text_enhanced`:
`(round(y0, 1), round(x0, 1))`. -/
def leRoundedYX (a b : TextBlock) : Bool :=
  decide (pyRound1 a.y0 < pyRound1 b.y0) ||
  (decide (pyRound1 a.y0 = pyRound1 b.y0) && decide (pyRound1 a.x0 ≤ pyRound1 b.x0))

/-- Row grouping of `_merge_text_blocks`: a block joins the current group
when its `y0` is within tolerance 2 of the group's first `y0`. -/
def groupAux (anchor : ℚ) (cur : List TextBlock) :
    List TextBlock → List (List TextBlock)
  | [] => [cur.reverse]
  | b :: rest =>
    if absQ (b.y0 - anchor) ≤ 2 then groupAux anchor (b :: cur) rest
    else cur.reverse :: groupAux b.y0 [b] rest

/-- Split a (sorted) block list into same-row groups. -/
def groupByY : List TextBlock → List (List TextBlock)
  | [] => []
  | b :: rest => groupAux b.y0 [b] rest

/-- The chain merge of `_merge_line_blocks`: a block within 1.5 estimated
character widths of the current block is appended to it (text joined with
one space, `x1` replaced, `y1` maximised, whitespace info concatenated). -/
def chainMerge : TextBlock → List TextBlock → List TextBlock
  | cur, [] => [cur]
  | cur, b :: rest =>
    let gap := b.x0 - cur.x1
    let charWidth := cur.size * (1/2)
    if gap ≤ charWidth * (3/2) then
      chainMerge { cur with
        text := cur.text ++ " " ++ b.text,
        x1 := b.x1,
        y1 := max cur.y1 b.y1,
        whitespace_info := cur.whitespace_info ++ b.whitespace_info } rest
    else cur :: chainMerge b rest

/-- `PDFExtractor._merge_line_blocks`: sort one row by `x0` and chain
merge adjacent blocks. -/
def mergeLineBlocks (lineBlocks : List TextBlock) : List TextBlock :=
  match stableSort leX lineBlocks with
  | [] => []
  | b :: rest => chainMerge b rest

/-- The trailing pass of `_merge_text_blocks` that prefixes a newline to a
block starting a new paragraph (vertical gap above tolerance or changed
size/boldness/level). -/
def newlineAux (prev : TextBlock) : List TextBlock → List TextBlock
  | [] => []
  | b :: rest =>
    let b' := if b.y0 - prev.y1 > 2 ∨ b.size ≠ prev.size ∨
                 b.is_bold ≠ prev.is_bold ∨ b.level ≠ prev.level
      then { b with text := "\n" ++ b.text } else b
    b' :: newlineAux b' rest

/-- `PDFExtractor._merge_text_blocks`. -/
def mergeTextBlocks (tbs : List TextBlock) : List TextBlock :=
  if tbs.isEmpty then []
  else
    let merged := (groupByY (stableSort leYX tbs)).flatMap mergeLineBlocks
    match merged with
    | [] => []
    | b :: rest => b :: newlineAux b rest

/-- The page-text join of `extract_text_enhanced`: block texts with a
newline between blocks separated vertically by more than 2 or differing in
size, boldness or level. -/
def pageTextOf : List TextBlock → String
  | [] => ""
  | [b] => b.text
  | b :: b2 :: rest =>
    b.text ++
    (if b2.y0 - b.y1 > 2 ∨ b.size ≠ b2.size ∨ b.is_bold ≠ b2.is_bold ∨
        b.level ≠ b2.level then "\n" else "") ++
    pageTextOf (b2 :: rest)

/-- `PDFExtractor.extract_text_ocr`: the whole body is a `try` whose
`except` returns the empty string; the OCR engine call itself is external
and is modelled as an `Except` input (`error` is any internal failure).
On success the source returns `text or ""`. -/
def extractTextOcr (ocr : Except String String) : String :=
  match ocr with
  | .ok t => if t = "" then "" else t
  | .error _ => ""

/-- An OCR-synthesized text block for (0-based) line `i`. -/
def mkOcrBlock (pageNum : Nat) (w : ℚ) (yStep : ℚ) (i : Nat) (line : String) : TextBlock :=
  let xCenter := w / 2
  { id := "text_" ++ toString pageNum ++ "_ocr_" ++ toString i,
    text := pyStrip line,
    x0 := xCenter - 100, y0 := (i : ℚ) * yStep,
    x1 := xCenter + 100, y1 := ((i : ℚ) + 1) * yStep,
    font := "Unknown", is_bold := false, size := 10, spans := [],
    level := 0, parent_id := none,
    whitespace_info := spanWhitespace line.data }

/-- `PDFExtractor.extract_text_enhanced`, producing the page's
`text_blocks` and `text` fields.  `tableBboxes` is
`page_data.get("tables", [])` at call time, `ocr` models the external OCR
engine used by the fallback. -/
def extractTextEnhanced (pageNum : Nat) (w h : ℚ) (tableBboxes : List BBox)
    (raw : List RawBlock) (ocr : Except String String) :
    List TextBlock × String :=
  let tbs := assembleRawBlocks pageNum tableBboxes 0 raw
  let merged := stableSort leRoundedYX (mergeTextBlocks tbs)
  let text := pageTextOf merged
  if merged.isEmpty then
    let ocrText := extractTextOcr ocr
    if ocrText ≠ "" then
      let lines := ocrText.splitOn "\n"
      let yStep := h / (max 1 lines.length : ℚ)
      let ocrBlocks := lines.enum.filterMap (fun il =>
        if pyStrip il.2 ≠ "" then some (mkOcrBlock pageNum w yStep il.1 il.2) else none)
      (tbs ++ ocrBlocks, ocrText)
    else (merged, text)
  else (merged, text)

/-! ## Hierarchy inference (`pdf_to_json.py`, `_infer_hierarchy`) -/

/-- Descending comparator on font sizes. -/
def geQ (a b : ℚ) : Bool := decide (a ≥ b)

/-- The page's distinct font sizes in descending order
(`sorted(set(sizes), reverse=True)`). -/
def fontSizesOf (blocks : List TextBlock) : List ℚ :=
  stableSort geQ (blocks.map (·.size)).dedup

/-- The base level of a block: the rank of its size in the distinct-size
list (list length when absent, which cannot happen for a block of the
page), minus one — floored at zero by `Nat` subtraction — when bold. -/
def rankLevel (fontSizes : List ℚ) (b : TextBlock) : Nat :=
  let r := if fontSizes.isEmpty then 0
    else if fontSizes.contains b.size then fontSizes.indexOf b.size
    else fontSizes.length
  if b.is_bold then r - 1 else r

/-- One step of the hierarchy loop: the level/parent update of the
current block given the previously processed block. -/
def hierStep (fontSizes : List ℚ) (last : Option TextBlock) (b : TextBlock) : TextBlock :=
  let base := rankLevel fontSizes b
  match last with
  | some lb =>
    if b.x0 > lb.x0 + 5 then { b with level := lb.level + 1, parent_id := some lb.id }
    else { b with level := base, parent_id := none }
  | none => { b with level := base, parent_id := none }

/-- The hierarchy loop over the sorted blocks. -/
def hierGo (fontSizes : List ℚ) : Option TextBlock → List TextBlock → List TextBlock
  | _, [] => []
  | last, b :: rest =>
    let b' := hierStep fontSizes last b
    b' :: hierGo fontSizes (some b') rest

/-- `PDFExtractor._infer_hierarchy`. -/
def inferHierarchy (blocks : List TextBlock) : List TextBlock :=
  if blocks.isEmpty then []
  else
    let sorted := stableSort leYX blocks
    hierGo (fontSizesOf sorted) none sorted

/-! ## Caption resolution (`pdf_to_json.py`, `_find_table_caption`) -/

/-- One caption candidate record. -/
structure Candidate where
  text : String
  normalized : String
  distance : ℚ
  x_distance : ℚ
  priority : ℤ
  bbox : BBox
deriving DecidableEq, Repr

/-- `re.sub(r'\s+', ' ', text.strip())`. -/
def normalizeWs (s : String) : String :=
  String.mk (collapseRuns pyIsSpace ' ' (pyStripChars s.data))

/-- Anchored match attempt for one alternative of the caption regex:
the prefix, then `\s*`, then at least one digit (the trailing `.*$`
always matches a newline-free normalized text). -/
def matchesCaptionAlt (p l : List Char) : Bool :=
  p.isPrefixOf l &&
  (match (l.drop p.length).dropWhile pyIsSpace with
   | [] => false
   | c :: _ => c.isDigit)

/-- The caption regex `^(Table|Figure|그림|Fig\.)\s*\d+.*$` with
`re.IGNORECASE`, applied via `re.match`. -/
def matchesCaptionPattern (s : String) : Bool :=
  let l := s.data.map Char.toLower
  matchesCaptionAlt "table".data l || matchesCaptionAlt "figure".data l ||
  matchesCaptionAlt "그림".data l || matchesCaptionAlt "fig.".data l

/-- The candidate filter of `_find_table_caption`: non-blank text, bottom
edge at or above the table top, horizontally centered within half the
table width, and within 15% of the page height above the table top.
Priority: −1 for a caption-pattern match, and −1 more for bold text. -/
def captionCandidateOf (height : ℚ) (bb : BBox) (b : TextBlock) : Option Candidate :=
  let text := pyStrip b.text
  if text = "" then none
  else if ¬ (b.y1 ≤ bb.y0) then none
  else
    let blockCenterX := (b.x0 + b.x1) / 2
    let tableCenterX := (bb.x0 + bb.x1) / 2
    let xDistance := absQ (blockCenterX - tableCenterX)
    if xDistance > (bb.x1 - bb.x0) / 2 then none
    else
      let yDistance := bb.y0 - b.y1
      if yDistance > height * (15/100) then none
      else
        let norm := normalizeWs text
        let pri : ℤ := (if matchesCaptionPattern norm then -1 else 0) +
                       (if b.is_bold then -1 else 0)
        some { text := text, normalized := norm, distance := yDistance,
               x_distance := xDistance, priority := pri,
               bbox := ⟨b.x0, b.y0, b.x1, b.y1⟩ }

/-- All caption candidates of a page for a target bbox, in block order. -/
def captionCandidates (height : ℚ) (blocks : List TextBlock) (bb : BBox) :
    List Candidate :=
  blocks.filterMap (captionCandidateOf height bb)

/-- The ranking key `(priority, distance, x_distance)`. -/
def candKey (c : Candidate) : ℤ × ℚ × ℚ := (c.priority, c.distance, c.x_distance)

/-- Strict lexicographic comparison of ranking keys (Python tuple `<`). -/
def keyLt (a b : ℤ × ℚ × ℚ) : Bool :=
  decide (a.1 < b.1) ||
  (decide (a.1 = b.1) &&
   (decide (a.2.1 < b.2.1) ||
    (decide (a.2.1 = b.2.1) && decide (a.2.2 < b.2.2))))

/-- `PDFExtractor._find_table_caption`: `None` without text blocks or
candidates, else the text of the minimum-key candidate (Python `min`,
first minimum wins). -/
def findTableCaption (height : ℚ) (blocks : List TextBlock) (bb : BBox) :
    Option String :=
  if blocks.isEmpty then none
  else
    match pyMinBy candKey keyLt (captionCandidates height blocks bb) with
    | some c => some c.text
    | none => none

/-! ## The per-page extraction pipeline (`pdf_to_json.py`, `extract`) -/

/-- A table detected by `pdfplumber.find_tables` on a page: its bbox and
the raw cell grid that `table.extract()` returns (`none` is a `None`
cell). -/
structure DetTable where
  bbox : BBox
  grid : List (List (Option String))
deriving DecidableEq, Repr

/-- The table record stored in a page's `tables` list (image artifacts
are file I/O and not modelled). -/
structure TableRec where
  id : String
  bbox : BBox
  caption : Option String
  raw_data : List (List String)
  structured_data : StructuredTableData
deriving DecidableEq, Repr

/-- `PDFExtractor.extract_tables` over already-detected tables: caption
from the page's current text blocks, cleaned grid, optimized structure. -/
def extractTables (pageNum : Nat) (height : ℚ) (textBlocks : List TextBlock)
    (found : List DetTable) : List TableRec :=
  found.enum.map (fun it =>
    let cleaned := cleanTableData it.2.grid
    { id := "table_" ++ toString pageNum ++ "_" ++ toString it.1,
      bbox := it.2.bbox,
      caption := findTableCaption height textBlocks it.2.bbox,
      raw_data := cleaned,
      structured_data := optimizeTableStructure cleaned })

/-- A page of the extracted document. -/
structure PageData where
  page_number : Nat
  width : ℚ
  height : ℚ
  text_blocks : List TextBlock
  tables : List TableRec
  text : String
deriving DecidableEq, Repr

/-- The per-page body of `PDFExtractor.extract`: the page starts with an
empty `tables` list, `extract_text_enhanced` runs first (so the table
bboxes it can exclude against are those of the empty initial list), then
`extract_tables` fills `tables`, then `_infer_hierarchy` rewrites the text
blocks. -/
def extractPage (pageNum : Nat) (w h : ℚ) (raw : List RawBlock)
    (found : List DetTable) (ocr : Except String String) : PageData :=
  let tables0 : List TableRec := []
  let r := extractTextEnhanced pageNum w h (tables0.map (·.bbox)) raw ocr
  let tables := extractTables pageNum h r.1 found
  { page_number := pageNum, width := w, height := h,
    text_blocks := inferHierarchy r.1, tables := tables, text := r.2 }

/-! ## Filename sanitization (`pdf_to_json.py`, second `_sanitize_filename`) -/

/-- ASCII word character `[0-9A-Za-z_]`, modelling Python regex `\w`
(the repository's filenames are ASCII; non-ASCII word characters are not
modelled). -/
def pyIsWord (c : Char) : Bool :=
  (48 ≤ c.toNat && c.toNat ≤ 57) || (65 ≤ c.toNat && c.toNat ≤ 90) ||
  (97 ≤ c.toNat && c.toNat ≤ 122) || c.toNat = 95

/-- One character of `re.sub` for the class `[<>:"/\\|?*]`. -/
def replPathUnsafe (c : Char) : Char :=
  if c = '<' || c = '>' || c = ':' || c = '"' || c = '/' || c = '\\' ||
     c = '|' || c = '?' || c = '*' then '_' else c

/-- One character of `re.sub` for the class `[^\w\s-]`. -/
def replNonWord (c : Char) : Char :=
  if pyIsWord c || pyIsSpace c || c = '-' then c else '_'

/-- Underscore test, the `_` class of the run-collapsing `re.sub`. -/
def isUnd (c : Char) : Bool := c = '_'

/-- Steps 1–2 of `PDFExtractor._sanitize_filename` (the later of the two
definitions in the class, which is the one Python keeps):
`re.sub(r'\s+', ' ', filename.strip())` followed by
`re.sub(r'[\n\r\t]', '', ...)`. -/
def sanitizeStage2 (l : List Char) : List Char :=
  (collapseRuns pyIsSpace ' ' (stripBoth pyIsSpace l)).filter
    (fun c => !(c = '\n' || c = '\r' || c = '\t'))

/-- Steps 3–4: `re.sub(r'[<>:"/\\|?*]', '_', ...)` then
`re.sub(r'[^\w\s-]', '_', ...)`. -/
def sanitizeStage4 (l : List Char) : List Char :=
  ((sanitizeStage2 l).map replPathUnsafe).map replNonWord

/-- Steps 5–6: `re.sub(r'_+', '_', ...)` then `.replace(' ', '_')`. -/
def sanitizeStage6 (l : List Char) : List Char :=
  (collapseRuns isUnd '_' (sanitizeStage4 l)).map
    (fun c => if c = ' ' then '_' else c)

/-- The full transformation pipeline of `_sanitize_filename` without the
empty-input defaults: stages 1–6, then `.strip('_')` and `[:50]`. -/
def sanitizeCore (l : List Char) : List Char :=
  (stripBoth isUnd (sanitizeStage6 l)).take 50

/-- `PDFExtractor._sanitize_filename` on a character list: empty input and
an empty pipeline result give the default `"unnamed"`. -/
def sanitizeFilenameChars (l : List Char) : List Char :=
  if l.isEmpty then "unnamed".data
  else
    let r := sanitizeCore l
    if r.isEmpty then "unnamed".data else r

/-- `PDFExtractor._sanitize_filename` on `String`. -/
def sanitizeFilename (s : String) : String := String.mk (sanitizeFilenameChars s.data)

/-! ## Reconstruction-side text cleaning (`json_to_pdf.py`, `clean_text_for_pdf`) -/

/-- Surrogate code point test (`0xD800 <= ord(char) <= 0xDFFF`). -/
def isSurrogateCode (c : Nat) : Bool := 0xD800 ≤ c && c ≤ 0xDFFF

/-- The character filter of `clean_text_for_pdf`: drop surrogates and all
control characters below 32 except tab, newline and carriage return. -/
def cleanKeepCode (c : Nat) : Bool :=
  !(isSurrogateCode c) && !(c < 32 && !(c = 9 || c = 10 || c = 13))

/-- `clean_text_for_pdf` over a list of Unicode code points: remove NUL,
remove surrogates and C0 controls other than `\t\n\r`, collapse whitespace
runs to a single space, strip both ends. -/
def cleanTextForPdf (text : List Nat) : List Nat :=
  if text.isEmpty then []
  else
    let t1 := text.filter (fun c => c ≠ 0)
    let t2 := t1.filter cleanKeepCode
    let t3 := collapseRuns pyIsSpaceCode 32 t2
    stripBoth pyIsSpaceCode t3

/-! ## Reconstruction-side text suppression (`json_to_pdf.py`, `render_text_enhanced`) -/

/-- A text block of the JSON document as the reconstructor reads it
(text as raw code points, geometry as rationals). -/
structure JBlock where
  text : List Nat
  x0 : ℚ
  y0 : ℚ
  x1 : ℚ
  y1 : ℚ
deriving DecidableEq, Repr

/-- The overlap test of `is_inside_any_table_or_image_or_cell` for a single
box, with its `margin` (1.0 at the call site). -/
def overlapsBox (x0 y0 x1 y1 : ℚ) (margin : ℚ) (b : BBox) : Bool :=
  decide (x0 < b.x1 + margin) && decide (x1 > b.x0 - margin) &&
  decide (y0 < b.y1 + margin) && decide (y1 > b.y0 - margin)

/-- `is_inside_any_table_or_image_or_cell` from `render_text_enhanced`:
the block's bbox overlaps (margin 1.0) some rendered table box, cell box
or image box, scanned in the order `table_boxes + cell_bboxes +
image_boxes`. -/
def insideAnyBox (tableBoxes cellBoxes imageBoxes : List BBox) (x0 y0 x1 y1 : ℚ) : Bool :=
  (tableBoxes ++ cellBoxes ++ imageBoxes).any (overlapsBox x0 y0 x1 y1 1)

/-- The block-selection logic of `render_text_enhanced`: a block is drawn
exactly when its raw text is non-empty, its bbox does not overlap any
rendered table/cell/image box, and its cleaned text is non-empty (the
drawing itself is reportlab I/O and is not modelled).  Returns the list of
drawn blocks in order. -/
def renderTextEnhanced (textBlocks : List JBlock)
    (tableBoxes cellBoxes imageBoxes : List BBox) : List JBlock :=
  textBlocks.filter (fun b =>
    !b.text.isEmpty &&
    !insideAnyBox tableBoxes cellBoxes imageBoxes b.x0 b.y0 b.x1 b.y1 &&
    !(cleanTextForPdf b.text).isEmpty)

/-! ## Auxiliary predicates used by the theorems -/

/-- No two adjacent elements of the list both satisfy `p`. -/
def noAdjB (p : α → Bool) : List α → Bool
  | [] => true
  | [_] => true
  | a :: b :: rest => (!(p a && p b)) && noAdjB p (b :: rest)

/-- Whether the head of the list satisfies `p` (`false` for `[]`). -/
def headSat (p : α → Bool) : List α → Bool
  | [] => false
  | a :: _ => p a

/-- Whether the last element of the list satisfies `p` (`false` for `[]`). -/
def lastSat (p : α → Bool) : List α → Bool
  | [] => false
  | [a] => p a
  | _ :: b :: rest => lastSat p (b :: rest)

/-- Unicode control character (category Cc): C0 range or DEL/C1 range. -/
def isControlCode (c : Nat) : Bool := c < 32 || (127 ≤ c && c ≤ 159)

/-- Concrete extraction input used to evaluate the claim about in-table
text exclusion: one raw text block whose bbox lies fully inside the single
detected table's bbox `(0, 0, 100, 100)`. -/
def rawBlockInsideTable : RawBlock :=
  { type := 0, bbox := ⟨10, 10, 20, 20⟩,
    lines := [{ bbox := ⟨10, 10, 20, 20⟩,
                spans := [{ text := "inside", bbox := ⟨10, 10, 20, 20⟩,
                            font := "F", size := 10, flags := 0 }] }] }

/-- The detected table paired with `rawBlockInsideTable`. -/
def detTableC1 : DetTable :=
  { bbox := ⟨0, 0, 100, 100⟩, grid := [[some "a", some "b"]] }

/-! ## Shared lemmas about run collapsing and stripping -/

/-! ## Shared lemmas about run collapsing and stripping -/

section RunLemmas

variable {α : Type} {p : α → Bool} {rep : α}

theorem mem_collapseAux {c : α} :
    ∀ {b : Bool} {l : List α}, c ∈ collapseAux p rep b l →
      c = rep ∨ (c ∈ l ∧ p c = false) := by
  intro b l
  induction l generalizing b with
  | nil => cases b <;> simp [collapseAux]
  | cons a as ih =>
    intro hc
    by_cases hpa : p a = true
    · cases b with
      | true =>
        simp only [collapseAux, if_pos hpa] at hc
        rcases ih hc with h | h
        · exact Or.inl h
        · exact Or.inr ⟨List.mem_cons_of_mem _ h.1, h.2⟩
      | false =>
        simp only [collapseAux, if_pos hpa] at hc
        rcases List.mem_cons.mp hc with h | h
        · exact Or.inl h
        · rcases ih h with h2 | h2
          · exact Or.inl h2
          · exact Or.inr ⟨List.mem_cons_of_mem _ h2.1, h2.2⟩
    · have hpa2 : p a = false := by rwa [Bool.not_eq_true] at hpa
      have hc2 : c ∈ a :: collapseAux p rep false as := by
        cases b <;> simpa only [collapseAux, if_neg hpa] using hc
      rcases List.mem_cons.mp hc2 with h | h
      · exact Or.inr ⟨by simp [h], h ▸ hpa2⟩
      · rcases ih h with h2 | h2
        · exact Or.inl h2
        · exact Or.inr ⟨List.mem_cons_of_mem _ h2.1, h2.2⟩

theorem noAdjB_cons_cons {a b : α} {l : List α} :
    noAdjB p (a :: b :: l) = ((!(p a && p b)) && noAdjB p (b :: l)) := rfl

theorem noAdjB_tail {a : α} {l : List α} (h : noAdjB p (a :: l) = true) :
    noAdjB p l = true := by
  cases l with
  | nil => rfl
  | cons b bs =>
    rw [noAdjB_cons_cons, Bool.and_eq_true] at h
    exact h.2

theorem collapseAux_noAdj :
    ∀ l : List α,
      noAdjB p (collapseAux p rep false l) = true ∧
      noAdjB p (collapseAux p rep true l) = true ∧
      headSat p (collapseAux p rep true l) = false := by
  intro l
  induction l with
  | nil => exact ⟨rfl, rfl, rfl⟩
  | cons a as ih =>
    obtain ⟨ihf, iht, ihh⟩ := ih
    by_cases hpa : p a = true
    · refine ⟨?_, ?_, ?_⟩
      · simp only [collapseAux, if_pos hpa]
        cases hct : collapseAux p rep true as with
        | nil => rfl
        | cons x xs =>
          rw [hct] at ihh iht
          rw [noAdjB_cons_cons]
          simp only [headSat] at ihh
          simp [ihh, iht]
      · simp only [collapseAux, if_pos hpa]
        exact iht
      · simp only [collapseAux, if_pos hpa]
        exact ihh
    · have hpa2 : p a = false := by rwa [Bool.not_eq_true] at hpa
      have hcons : ∀ X : List α, noAdjB p X = true → noAdjB p (a :: X) = true := by
        intro X hn
        cases X with
        | nil => rfl
        | cons x xs =>
          rw [noAdjB_cons_cons]
          simp [hpa2, hn]
      refine ⟨?_, ?_, ?_⟩
      · simp only [collapseAux, if_neg hpa]
        exact hcons _ ihf
      · simp only [collapseAux, if_neg hpa]
        exact hcons _ ihf
      · simp only [collapseAux, if_neg hpa]
        exact hpa2

theorem collapseAux_eq_self (hid : ∀ c, p c = true → c = rep) :
    ∀ l : List α, noAdjB p l = true →
      collapseAux p rep false l = l ∧
      (headSat p l = false → collapseAux p rep true l = l) := by
  intro l
  induction l with
  | nil => exact fun _ => ⟨rfl, fun _ => rfl⟩
  | cons a as ih =>
    intro hna
    obtain ⟨ihf, iht⟩ := ih (noAdjB_tail hna)
    by_cases hpa : p a = true
    · have ha : a = rep := hid a hpa
      have hhas : headSat p as = false := by
        cases as with
        | nil => rfl
        | cons b bs =>
          rw [noAdjB_cons_cons, Bool.and_eq_true] at hna
          have h1 := hna.1
          simp only [hpa, Bool.true_and, Bool.not_eq_eq_eq_not, Bool.not_true] at h1
          exact h1
      constructor
      · simp only [collapseAux, if_pos hpa]
        rw [iht hhas, ha]
      · intro hh
        simp only [headSat, hpa] at hh
        exact absurd hh (by decide)
    · have hpa2 : p a = false := by rwa [Bool.not_eq_true] at hpa
      constructor
      · simp only [collapseAux, if_neg hpa]
        rw [ihf]
      · intro _
        simp only [collapseAux, if_neg hpa]
        rw [ihf]

theorem collapseAux_eq_self_of_none {l : List α}
    (h : ∀ c ∈ l, p c = false) : ∀ b, collapseAux p rep b l = l := by
  induction l with
  | nil => intro b; cases b <;> rfl
  | cons a as ih =>
    intro b
    have hpa : ¬ p a = true := by simp [h a (by simp)]
    have htail := ih (fun c hc => h c (List.mem_cons_of_mem _ hc))
    cases b <;> simp only [collapseAux, if_neg hpa] <;> rw [htail]

theorem stripTrail_cons (a : α) (as : List α) :
    stripTrail p (a :: as) =
      if (stripTrail p as).isEmpty && p a then [] else a :: stripTrail p as := rfl

theorem mem_stripTrail {c : α} :
    ∀ {l : List α}, c ∈ stripTrail p l → c ∈ l := by
  intro l
  induction l with
  | nil => simp [stripTrail]
  | cons a as ih =>
    intro hc
    rw [stripTrail_cons] at hc
    by_cases hcond : ((stripTrail p as).isEmpty && p a) = true
    · rw [if_pos hcond] at hc
      cases hc
    · rw [if_neg hcond] at hc
      rcases List.mem_cons.mp hc with h | h
      · simp [h]
      · exact List.mem_cons_of_mem _ (ih h)

theorem headSat_stripTrail {l : List α} (h : headSat p l = false) :
    headSat p (stripTrail p l) = false := by
  cases l with
  | nil => rfl
  | cons a as =>
    rw [stripTrail_cons]
    by_cases hcond : ((stripTrail p as).isEmpty && p a) = true
    · rw [if_pos hcond]; rfl
    · rw [if_neg hcond]; exact h

theorem stripTrail_head_eq {l : List α} (h : stripTrail p l ≠ []) :
    headSat p (stripTrail p l) = headSat p l := by
  cases l with
  | nil => exact absurd rfl h
  | cons a as =>
    rw [stripTrail_cons] at h ⊢
    by_cases hcond : ((stripTrail p as).isEmpty && p a) = true
    · rw [if_pos hcond] at h
      exact absurd rfl h
    · rw [if_neg hcond]; rfl

theorem lastSat_cons {a : α} {l : List α} (h : l ≠ []) :
    lastSat p (a :: l) = lastSat p l := by
  cases l with
  | nil => exact absurd rfl h
  | cons b bs => rfl

theorem stripTrail_lastSat :
    ∀ {l : List α}, stripTrail p l ≠ [] → lastSat p (stripTrail p l) = false := by
  intro l
  induction l with
  | nil => intro h; exact absurd rfl h
  | cons a as ih =>
    intro hne
    rw [stripTrail_cons] at hne ⊢
    by_cases hcond : ((stripTrail p as).isEmpty && p a) = true
    · rw [if_pos hcond] at hne
      exact absurd rfl hne
    · rw [if_neg hcond]
      by_cases hr : stripTrail p as = []
      · have hpa : p a = false := by
          rw [hr] at hcond
          simpa using hcond
        rw [hr]
        exact hpa
      · rw [lastSat_cons hr]
        exact ih hr

theorem stripTrail_eq_self :
    ∀ {l : List α}, lastSat p l = false → stripTrail p l = l := by
  intro l
  induction l with
  | nil => intro _; rfl
  | cons a as ih =>
    intro hl
    cases has : as with
    | nil =>
      subst has
      simp only [lastSat] at hl
      simp [stripTrail_cons, stripTrail, hl]
    | cons b bs =>
      subst has
      rw [lastSat_cons (by simp)] at hl
      rw [stripTrail_cons, ih hl]
      rw [if_neg (by simp)]

theorem stripTrail_noAdj :
    ∀ {l : List α}, noAdjB p l = true → noAdjB p (stripTrail p l) = true := by
  intro l
  induction l with
  | nil => intro _; rfl
  | cons a as ih =>
    intro hna
    have hnas := noAdjB_tail hna
    rw [stripTrail_cons]
    by_cases hcond : ((stripTrail p as).isEmpty && p a) = true
    · rw [if_pos hcond]; rfl
    · rw [if_neg hcond]
      cases hr : stripTrail p as with
      | nil => rfl
      | cons x xs =>
        rw [noAdjB_cons_cons]
        have hxh : headSat p (x :: xs) = headSat p as := by
          rw [← hr]
          exact stripTrail_head_eq (by rw [hr]; simp)
        have hax : (!(p a && p x)) = true := by
          cases as with
          | nil => simp [stripTrail] at hr
          | cons b bs =>
            simp only [headSat] at hxh
            rw [noAdjB_cons_cons, Bool.and_eq_true] at hna
            rw [hxh]
            exact hna.1
        have hx2 : noAdjB p (x :: xs) = true := by rw [← hr]; exact ih hnas
        rw [hax, hx2]
        rfl

theorem dropWhile_eq_self_of_none {l : List α} (h : ∀ c ∈ l, p c = false) :
    l.dropWhile p = l := by
  cases l with
  | nil => rfl
  | cons a as => rw [List.dropWhile_cons_of_neg (by simp [h a (by simp)])]

theorem noAdjB_dropWhile :
    ∀ {l : List α}, noAdjB p l = true → noAdjB p (l.dropWhile p) = true := by
  intro l
  induction l with
  | nil => intro _; rfl
  | cons a as ih =>
    intro hna
    by_cases hpa : p a = true
    · rw [List.dropWhile_cons_of_pos hpa]
      exact ih (noAdjB_tail hna)
    · rw [List.dropWhile_cons_of_neg hpa]
      exact hna

theorem headSat_dropWhile_self (l : List α) :
    headSat p (l.dropWhile p) = false := by
  induction l with
  | nil => rfl
  | cons a as ih =>
    by_cases hpa : p a = true
    · rw [List.dropWhile_cons_of_pos hpa]; exact ih
    · rw [List.dropWhile_cons_of_neg hpa]
      simpa [headSat] using hpa

theorem mem_dropWhile {c : α} {l : List α} (h : c ∈ l.dropWhile p) : c ∈ l := by
  induction l with
  | nil => simpa using h
  | cons a as ih =>
    by_cases hpa : p a = true
    · rw [List.dropWhile_cons_of_pos hpa] at h
      exact List.mem_cons_of_mem _ (ih h)
    · rw [List.dropWhile_cons_of_neg hpa] at h
      exact h

theorem mem_stripBoth {c : α} {l : List α} (h : c ∈ stripBoth p l) : c ∈ l :=
  mem_dropWhile (mem_stripTrail h)

theorem noAdjB_take :
    ∀ {l : List α} {n : Nat}, noAdjB p l = true → noAdjB p (l.take n) = true := by
  intro l
  induction l with
  | nil => intro n _; simp [noAdjB]
  | cons a as ih =>
    intro n hna
    cases n with
    | zero => rfl
    | succ m =>
      rw [List.take_succ_cons]
      cases as with
      | nil => rw [List.take_nil]; rfl
      | cons b bs =>
        cases m with
        | zero => rfl
        | succ k =>
          rw [List.take_succ_cons, noAdjB_cons_cons]
          rw [noAdjB_cons_cons, Bool.and_eq_true] at hna
          have htail := ih (n := k + 1) hna.2
          rw [List.take_succ_cons] at htail
          simp [hna.1, htail]

theorem headSat_take {l : List α} {n : Nat} (hn : 0 < n) :
    headSat p (l.take n) = headSat p l := by
  cases l with
  | nil => simp
  | cons a as =>
    cases n with
    | zero => exact absurd hn (by simp)
    | succ m => rfl

theorem length_collapseAux :
    ∀ {l : List α} {b : Bool}, (collapseAux p rep b l).length ≤ l.length := by
  intro l
  induction l with
  | nil => intro b; cases b <;> simp [collapseAux]
  | cons a as ih =>
    intro b
    by_cases hpa : p a = true
    · cases b with
      | true =>
        simp only [collapseAux, if_pos hpa]
        exact Nat.le_succ_of_le ih
      | false =>
        simp only [collapseAux, if_pos hpa, List.length_cons]
        exact Nat.succ_le_succ ih
    · cases b <;> simp only [collapseAux, if_neg hpa, List.length_cons] <;>
        exact Nat.succ_le_succ ih

theorem length_stripTrail :
    ∀ {l : List α}, (stripTrail p l).length ≤ l.length := by
  intro l
  induction l with
  | nil => simp [stripTrail]
  | cons a as ih =>
    rw [stripTrail_cons]
    by_cases hcond : ((stripTrail p as).isEmpty && p a) = true
    · rw [if_pos hcond]; simp
    · rw [if_neg hcond, List.length_cons]
      exact Nat.succ_le_succ ih

theorem length_dropWhile_le (l : List α) : (l.dropWhile p).length ≤ l.length := by
  induction l with
  | nil => simp
  | cons a as ih =>
    by_cases hpa : p a = true
    · rw [List.dropWhile_cons_of_pos hpa]
      exact Nat.le_succ_of_le ih
    · rw [List.dropWhile_cons_of_neg hpa]

end RunLemmas

/-! ## Lemmas about the ranking key and Python `min` -/

theorem keyLt_trans {a b c : ℤ × ℚ × ℚ} (h1 : keyLt a b = true)
    (h2 : keyLt b c = true) : keyLt a c = true := by
  simp only [keyLt, Bool.or_eq_true, Bool.and_eq_true, decide_eq_true_eq] at h1 h2 ⊢
  rcases h1 with h1 | ⟨e1, h1⟩
  · rcases h2 with h2 | ⟨e2, _⟩
    · exact Or.inl (lt_trans h1 h2)
    · exact Or.inl (e2 ▸ h1)
  · rcases h2 with h2 | ⟨e2, h2⟩
    · exact Or.inl (e1 ▸ h2)
    · refine Or.inr ⟨e1.trans e2, ?_⟩
      rcases h1 with h1 | ⟨f1, h1⟩
      · rcases h2 with h2 | ⟨f2, _⟩
        · exact Or.inl (lt_trans h1 h2)
        · exact Or.inl (f2 ▸ h1)
      · rcases h2 with h2 | ⟨f2, h2⟩
        · exact Or.inl (f1 ▸ h2)
        · exact Or.inr ⟨f1.trans f2, lt_trans h1 h2⟩

theorem keyLt_total {a b : ℤ × ℚ × ℚ} (h1 : keyLt a b = false)
    (h2 : keyLt b a = false) : a = b := by
  simp only [keyLt, Bool.or_eq_false_iff, Bool.and_eq_false_iff,
    decide_eq_false_iff_not, not_lt] at h1 h2
  obtain ⟨hab, h1r⟩ := h1
  obtain ⟨hba, h2r⟩ := h2
  have e1 : a.1 = b.1 := le_antisymm hba hab
  rcases h1r with h1r | h1r
  · exact absurd (by simpa using e1) h1r
  rcases h2r with h2r | h2r
  · exact absurd (by simpa using e1.symm) h2r
  obtain ⟨hab2, h1s⟩ := h1r
  obtain ⟨hba2, h2s⟩ := h2r
  have e2 : a.2.1 = b.2.1 := le_antisymm hba2 hab2
  rcases h1s with h1s | h1s
  · exact absurd (by simpa using e2) h1s
  rcases h2s with h2s | h2s
  · exact absurd (by simpa using e2.symm) h2s
  have e3 : a.2.2 = b.2.2 := le_antisymm (by simpa using h2s) (by simpa using h1s)
  exact Prod.ext e1 (Prod.ext e2 e3)

theorem keyLt_of_lt_of_not_lt {a b c : ℤ × ℚ × ℚ} (h1 : keyLt a b = true)
    (h2 : keyLt c b = false) : keyLt a c = true := by
  cases hac : keyLt a c with
  | true => rfl
  | false =>
    cases hca : keyLt c a with
    | true => exact absurd (keyLt_trans hca h1) (by simp [h2])
    | false => exact absurd ((keyLt_total hac hca) ▸ h1) (by simp [h2])

/-- The fold inside `pyMinBy` keeps the first element attaining the
minimal key: the result splits its input `b :: l` into a strictly greater
earlier part and a not-smaller later part. -/
theorem pyMinBy_foldl_spec {α : Type} (key : α → ℤ × ℚ × ℚ) :
    ∀ (l : List α) (b : α),
      ∃ l1 l2,
        b :: l = l1 ++ (l.foldl (fun best c => if keyLt (key c) (key best) then c else best) b) :: l2 ∧
        (∀ c ∈ l1, keyLt (key (l.foldl (fun best c => if keyLt (key c) (key best) then c else best) b)) (key c) = true) ∧
        (∀ c ∈ l2, keyLt (key c) (key (l.foldl (fun best c => if keyLt (key c) (key best) then c else best) b)) = false) := by
  intro l
  induction l with
  | nil =>
    intro b
    exact ⟨[], [], rfl, by simp, by simp⟩
  | cons c cs ih =>
    intro b
    by_cases hcb : keyLt (key c) (key b) = true
    · obtain ⟨l1, l2, hsplit, hbefore, hafter⟩ := ih c
      have hfold : (c :: cs).foldl (fun best x => if keyLt (key x) (key best) then x else best) b =
          cs.foldl (fun best x => if keyLt (key x) (key best) then x else best) c := by
        simp [List.foldl_cons, hcb]
      refine ⟨b :: l1, l2, ?_, ?_, ?_⟩
      · rw [hfold, List.cons_append, ← hsplit]
      · intro x hx
        rcases List.mem_cons.mp hx with h | h
        · subst h
          rw [hfold]
          cases hm : l1 with
          | nil =>
            have : c :: cs = (cs.foldl (fun best x => if keyLt (key x) (key best) then x else best) c) :: l2 := by
              rw [hsplit, hm]; rfl
            have hhead := (List.cons.injEq _ _ _ _ ▸ this).1
            rw [← hhead]
            exact hcb
          | cons y ys =>
            have hcy : c = y := by
              rw [hm] at hsplit
              exact (List.cons.injEq _ _ _ _ ▸ hsplit).1
            have := hbefore y (by rw [hm]; simp)
            exact keyLt_trans this (hcy ▸ hcb)
        · rw [hfold]
          exact hbefore x h
      · intro x hx
        rw [hfold]
        exact hafter x hx
    · obtain ⟨l1, l2, hsplit, hbefore, hafter⟩ := ih b
      have hfold : (c :: cs).foldl (fun best x => if keyLt (key x) (key best) then x else best) b =
          cs.foldl (fun best x => if keyLt (key x) (key best) then x else best) b := by
        simp [List.foldl_cons, hcb]
      have hcbf : keyLt (key c) (key b) = false := by
        rwa [Bool.not_eq_true] at hcb
      cases hm : l1 with
      | nil =>
        have hbm : b = cs.foldl (fun best x => if keyLt (key x) (key best) then x else best) b := by
          rw [hm] at hsplit
          exact (List.cons.injEq _ _ _ _ ▸ hsplit).1
        have hcl2 : cs = l2 := by
          rw [hm] at hsplit
          exact (List.cons.injEq _ _ _ _ ▸ hsplit).2
        refine ⟨[], c :: cs, ?_, by simp, ?_⟩
        · rw [hfold, ← hbm]
          rfl
        · intro x hx
          rcases List.mem_cons.mp hx with h | h
          · subst h
            rw [hfold, ← hbm]
            exact hcbf
          · rw [hfold]
            exact hafter x (hcl2 ▸ h)
      | cons y ys =>
        have hby : b = y := by
          rw [hm] at hsplit
          exact (List.cons.injEq _ _ _ _ ▸ hsplit).1
        have hrest : cs = ys ++ (cs.foldl (fun best x => if keyLt (key x) (key best) then x else best) b) :: l2 := by
          rw [hm] at hsplit
          exact (List.cons.injEq _ _ _ _ ▸ hsplit).2
        refine ⟨b :: c :: ys, l2, ?_, ?_, ?_⟩
        · rw [hfold]
          simp only [List.cons_append]
          rw [← hrest]
        · intro x hx
          rcases List.mem_cons.mp hx with h | h
          · subst h
            rw [hfold]
            have hbmin := hbefore y (by rw [hm]; simp)
            exact hby ▸ hbmin
          · rcases List.mem_cons.mp h with h2 | h2
            · subst h2
              rw [hfold]
              have hbmin := hbefore y (by rw [hm]; simp)
              exact keyLt_of_lt_of_not_lt (hby ▸ hbmin) hcbf
            · rw [hfold]
              exact hbefore x (by rw [hm]; simp [h2])
        · intro x hx
          rw [hfold]
          exact hafter x hx

/-! ## Claim C2: classification is a pure function of the grid shape -/

theorem foldl_max_const (c : Nat) :
    ∀ l : List Nat, (∀ x ∈ l, x = c) → l.foldl max c = c := by
  intro l
  induction l with
  | nil => intro _; rfl
  | cons a as ih =>
    intro h
    have ha : a = c := h a (by simp)
    rw [List.foldl_cons, ha, Nat.max_self]
    exact ih (fun x hx => h x (List.mem_cons_of_mem _ hx))

theorem maxCols_uniform {g : List (List String)} {c : Nat} (hne : g ≠ [])
    (h : ∀ r ∈ g, r.length = c) : maxCols g = c := by
  cases g with
  | nil => exact absurd rfl hne
  | cons r rs =>
    have hr : r.length = c := h r (by simp)
    unfold maxCols
    rw [List.map_cons, List.foldl_cons, hr, Nat.zero_max]
    exact foldl_max_const c _ (by
      intro x hx
      obtain ⟨row, hrow, hlen⟩ := List.mem_map.mp hx
      rw [← hlen]
      exact h row (List.mem_cons_of_mem _ hrow))

/-- C2: StructuredTableData classification is a pure function of the
cleaned grid's shape: exactly 2 columns with at least 1 row yields the
KeyValue variant; at least 2 rows with more than 2 columns yields the
HeaderedGrid variant; exactly 1 row with more than 2 columns yields the
SingleRow variant; an empty grid yields the Empty variant. -/
theorem structured_classification (g : List (List String)) (c : Nat) :
    (g ≠ [] → (∀ r ∈ g, r.length = 2) →
      (optimizeTableStructure g).isKeyValue = true) ∧
    (2 ≤ g.length → (∀ r ∈ g, r.length = c) → 2 < c →
      (optimizeTableStructure g).isHeaderedGrid = true) ∧
    (g.length = 1 → (∀ r ∈ g, r.length = c) → 2 < c →
      (optimizeTableStructure g).isSingleRow = true) ∧
    optimizeTableStructure [] = .empty := by
  refine ⟨?_, ?_, ?_, rfl⟩
  · intro hne h2
    cases g with
    | nil => exact absurd rfl hne
    | cons r rs =>
      have hmax : maxCols (r :: rs) = 2 := maxCols_uniform (by simp) h2
      simp only [optimizeTableStructure, hmax, if_pos rfl]
      rfl
  · intro hlen hc hgt
    cases g with
    | nil => simp at hlen
    | cons r rs =>
      have hmax : maxCols (r :: rs) = c := maxCols_uniform (by simp) hc
      have hne2 : ¬ maxCols (r :: rs) = 2 := by omega
      have hrs : ¬ rs.isEmpty = true := by
        cases rs with
        | nil => simp at hlen
        | cons x xs => simp
      simp only [optimizeTableStructure, if_neg hne2, if_neg hrs]
      rfl
  · intro hlen hc hgt
    cases g with
    | nil => simp at hlen
    | cons r rs =>
      have hrs : rs = [] := by
        simp only [List.length_cons] at hlen
        exact List.length_eq_zero.mp (by omega)
      subst hrs
      have hmax : maxCols [r] = c := maxCols_uniform (by simp) hc
      have hne2 : ¬ maxCols [r] = 2 := by omega
      simp only [optimizeTableStructure, if_neg hne2]
      rfl

/-- Witness for C2: the three conditional classifications at concrete
grids. -/
theorem structured_classification_witness :
    (optimizeTableStructure [["k", "v"], ["a", "b"]]).isKeyValue = true ∧
    (optimizeTableStructure [["h1", "h2", "h3"], ["a", "b", "c"]]).isHeaderedGrid = true ∧
    (optimizeTableStructure [["a", "b", "c"]]).isSingleRow = true :=
  ⟨(structured_classification [["k", "v"], ["a", "b"]] 2).1 (by decide) (by decide),
   (structured_classification [["h1", "h2", "h3"], ["a", "b", "c"]] 3).2.1
     (by decide) (by decide) (by decide),
   (structured_classification [["a", "b", "c"]] 3).2.2.1
     (by decide) (by decide) (by decide)⟩

/-! ## Claim C3: the 2×2 key/value scenario -/

/-- C3: a table whose cleaned cell grid is
`[["ID", "TE02.03.01"], ["Status", "Pass"]]` gets structured data of type
"key_value" with exactly the pairs (ID, TE02.03.01), (Status, Pass), in
that order. -/
theorem scenario_key_value_table :
    optimizeTableStructure
      (cleanTableData [[some "ID", some "TE02.03.01"], [some "Status", some "Pass"]]) =
    .keyValue [("ID", "TE02.03.01"), ("Status", "Pass")] := by decide

/-! ## Claim C8: the table-caption candidate filter -/

/-- C8: a text block qualifies as a table-caption candidate only if its
bottom edge sits at or above the table's top edge, its vertical distance
from the table's top edge is at most 15% of the page height, and the
horizontal distance between block center and table center is at most half
the table's width. -/
theorem absQ_eq (q : ℚ) : absQ q = |q| := by
  unfold absQ
  by_cases hq : q < 0
  · rw [if_pos hq, abs_of_neg hq]
  · rw [if_neg hq, abs_of_nonneg (le_of_not_lt hq)]

theorem caption_candidate_only_if (h : ℚ) (blocks : List TextBlock) (bb : BBox)
    (c : Candidate) (hc : c ∈ captionCandidates h blocks bb) :
    c.bbox.y1 ≤ bb.y0 ∧
    bb.y0 - c.bbox.y1 ≤ h * (15/100) ∧
    |(c.bbox.x0 + c.bbox.x1) / 2 - (bb.x0 + bb.x1) / 2| ≤ (bb.x1 - bb.x0) / 2 := by
  obtain ⟨b, hb, heq⟩ := List.mem_filterMap.mp hc
  unfold captionCandidateOf at heq
  by_cases h1 : pyStrip b.text = ""
  · rw [if_pos h1] at heq
    cases heq
  · rw [if_neg h1] at heq
    by_cases h2 : ¬ (b.y1 ≤ bb.y0)
    · rw [if_pos h2] at heq
      cases heq
    · rw [if_neg h2] at heq
      push_neg at h2
      by_cases h3 : absQ ((b.x0 + b.x1) / 2 - (bb.x0 + bb.x1) / 2) > (bb.x1 - bb.x0) / 2
      · rw [if_pos h3] at heq
        cases heq
      · rw [if_neg h3] at heq
        push_neg at h3
        by_cases h4 : bb.y0 - b.y1 > h * (15/100)
        · rw [if_pos h4] at heq
          cases heq
        · rw [if_neg h4] at heq
          push_neg at h4
          have hbb : c.bbox = ⟨b.x0, b.y0, b.x1, b.y1⟩ := by
            cases heq
            rfl
          rw [hbb]
          rw [← absQ_eq]
          exact ⟨h2, h4, h3⟩

/-- Witness for C8: the theorem applied to the concrete candidate that a
concrete block produces for a concrete table bbox. -/
theorem caption_candidate_only_if_witness :
    (⟨"Table 1. Results", "Table 1. Results", 10, 0, -1, ⟨0, 80, 100, 90⟩⟩ :
        Candidate).bbox.y1 ≤ (⟨0, 100, 100, 200⟩ : BBox).y0 ∧
    (⟨0, 100, 100, 200⟩ : BBox).y0 -
      (⟨"Table 1. Results", "Table 1. Results", 10, 0, -1, ⟨0, 80, 100, 90⟩⟩ :
        Candidate).bbox.y1 ≤ 1000 * (15/100) ∧
    |((⟨"Table 1. Results", "Table 1. Results", 10, 0, -1, ⟨0, 80, 100, 90⟩⟩ :
        Candidate).bbox.x0 +
      (⟨"Table 1. Results", "Table 1. Results", 10, 0, -1, ⟨0, 80, 100, 90⟩⟩ :
        Candidate).bbox.x1) / 2 -
      ((⟨0, 100, 100, 200⟩ : BBox).x0 + (⟨0, 100, 100, 200⟩ : BBox).x1) / 2| ≤
      ((⟨0, 100, 100, 200⟩ : BBox).x1 - (⟨0, 100, 100, 200⟩ : BBox).x0) / 2 :=
  caption_candidate_only_if 1000
    [{ id := "text_1_0", text := "Table 1. Results", x0 := 0, y0 := 80,
       x1 := 100, y1 := 90, font := "F", is_bold := false, size := 10,
       spans := [], level := 0, parent_id := none, whitespace_info := [] }]
    ⟨0, 100, 100, 200⟩
    ⟨"Table 1. Results", "Table 1. Results", 10, 0, -1, ⟨0, 80, 100, 90⟩⟩
    (by
      have hlist : captionCandidates 1000
          [{ id := "text_1_0", text := "Table 1. Results", x0 := 0, y0 := 80,
             x1 := 100, y1 := 90, font := "F", is_bold := false, size := 10,
             spans := [], level := 0, parent_id := none, whitespace_info := [] }]
          ⟨0, 100, 100, 200⟩ =
          [⟨"Table 1. Results", "Table 1. Results", 10, 0, -1, ⟨0, 80, 100, 90⟩⟩] := by
        with_unfolding_all decide
      rw [hlist]
      exact List.mem_singleton.mpr rfl)

/-! ## Claim C6: caption resolution is deterministic, ties broken by
input order -/

/-- C6: caption resolution is a pure function of the candidate list (two
calls on the same inputs agree), and the selected caption is the first
candidate attaining the minimal ranking key: every strictly earlier
candidate has a strictly larger key and no later candidate has a smaller
one. -/
theorem caption_resolution_deterministic (h : ℚ) (blocks : List TextBlock)
    (bb : BBox) (hne : captionCandidates h blocks bb ≠ []) :
    findTableCaption h blocks bb = findTableCaption h blocks bb ∧
    ∃ m l1 l2,
      findTableCaption h blocks bb = some m.text ∧
      captionCandidates h blocks bb = l1 ++ m :: l2 ∧
      (∀ c ∈ l1, keyLt (candKey m) (candKey c) = true) ∧
      (∀ c ∈ l2, keyLt (candKey c) (candKey m) = false) := by
  refine ⟨rfl, ?_⟩
  have hbne : blocks.isEmpty = false := by
    cases blocks with
    | nil => exact absurd rfl hne
    | cons x xs => rfl
  cases hcands : captionCandidates h blocks bb with
  | nil => exact absurd hcands hne
  | cons c0 cs =>
    obtain ⟨l1, l2, hsplit, hbefore, hafter⟩ := pyMinBy_foldl_spec candKey cs c0
    refine ⟨cs.foldl (fun best c => if keyLt (candKey c) (candKey best) then c else best) c0,
      l1, l2, ?_, ?_, hbefore, hafter⟩
    · unfold findTableCaption
      rw [if_neg (by simp [hbne]), hcands]
      rfl
    · exact hsplit

/-- Witness for C6: the theorem applied to a page with two identical-key
candidates above a concrete table. -/
theorem caption_resolution_deterministic_witness :
    findTableCaption 1000
      [{ id := "text_1_0", text := "Caption A", x0 := 0, y0 := 80, x1 := 100,
         y1 := 90, font := "F", is_bold := false, size := 10, spans := [],
         level := 0, parent_id := none, whitespace_info := [] },
       { id := "text_1_1", text := "Caption B", x0 := 0, y0 := 80, x1 := 100,
         y1 := 90, font := "F", is_bold := false, size := 10, spans := [],
         level := 0, parent_id := none, whitespace_info := [] }]
      ⟨0, 100, 100, 200⟩ =
    findTableCaption 1000
      [{ id := "text_1_0", text := "Caption A", x0 := 0, y0 := 80, x1 := 100,
         y1 := 90, font := "F", is_bold := false, size := 10, spans := [],
         level := 0, parent_id := none, whitespace_info := [] },
       { id := "text_1_1", text := "Caption B", x0 := 0, y0 := 80, x1 := 100,
         y1 := 90, font := "F", is_bold := false, size := 10, spans := [],
         level := 0, parent_id := none, whitespace_info := [] }]
      ⟨0, 100, 100, 200⟩ ∧
    ∃ m l1 l2,
      findTableCaption 1000
        [{ id := "text_1_0", text := "Caption A", x0 := 0, y0 := 80, x1 := 100,
           y1 := 90, font := "F", is_bold := false, size := 10, spans := [],
           level := 0, parent_id := none, whitespace_info := [] },
         { id := "text_1_1", text := "Caption B", x0 := 0, y0 := 80, x1 := 100,
           y1 := 90, font := "F", is_bold := false, size := 10, spans := [],
           level := 0, parent_id := none, whitespace_info := [] }]
        ⟨0, 100, 100, 200⟩ = some m.text ∧
      captionCandidates 1000
        [{ id := "text_1_0", text := "Caption A", x0 := 0, y0 := 80, x1 := 100,
           y1 := 90, font := "F", is_bold := false, size := 10, spans := [],
           level := 0, parent_id := none, whitespace_info := [] },
         { id := "text_1_1", text := "Caption B", x0 := 0, y0 := 80, x1 := 100,
           y1 := 90, font := "F", is_bold := false, size := 10, spans := [],
           level := 0, parent_id := none, whitespace_info := [] }]
        ⟨0, 100, 100, 200⟩ = l1 ++ m :: l2 ∧
      (∀ c ∈ l1, keyLt (candKey m) (candKey c) = true) ∧
      (∀ c ∈ l2, keyLt (candKey c) (candKey m) = false) :=
  caption_resolution_deterministic 1000
    [{ id := "text_1_0", text := "Caption A", x0 := 0, y0 := 80, x1 := 100,
       y1 := 90, font := "F", is_bold := false, size := 10, spans := [],
       level := 0, parent_id := none, whitespace_info := [] },
     { id := "text_1_1", text := "Caption B", x0 := 0, y0 := 80, x1 := 100,
       y1 := 90, font := "F", is_bold := false, size := 10, spans := [],
       level := 0, parent_id := none, whitespace_info := [] }]
    ⟨0, 100, 100, 200⟩
    (by with_unfolding_all decide)

/-! ## Claim C5: hierarchy inference -/

theorem hierStep_x0 (fs : List ℚ) (pl : Option TextBlock) (b : TextBlock) :
    (hierStep fs pl b).x0 = b.x0 := by
  unfold hierStep
  cases pl with
  | none => rfl
  | some lb =>
    dsimp only
    split <;> rfl

theorem hierStep_id (fs : List ℚ) (pl : Option TextBlock) (b : TextBlock) :
    (hierStep fs pl b).id = b.id := by
  unfold hierStep
  cases pl with
  | none => rfl
  | some lb =>
    dsimp only
    split <;> rfl

theorem hierGo_cons (fs : List ℚ) (last : Option TextBlock) (b : TextBlock)
    (rest : List TextBlock) :
    hierGo fs last (b :: rest) =
      hierStep fs last b :: hierGo fs (some (hierStep fs last b)) rest := rfl

theorem hierGo_zero (fs : List ℚ) (last : Option TextBlock) (l : List TextBlock) :
    (hierGo fs last l)[0]? = (l[0]?).map (hierStep fs last) := by
  cases l with
  | nil => rfl
  | cons b rest => rw [hierGo_cons]; simp

theorem hierGo_is_step (fs : List ℚ) :
    ∀ (l : List TextBlock) (last : Option TextBlock) (j : Nat) (bj : TextBlock),
      (hierGo fs last l)[j]? = some bj →
      ∃ pl xj, l[j]? = some xj ∧ bj = hierStep fs pl xj := by
  intro l
  induction l with
  | nil => intro last j bj h; simp [hierGo] at h
  | cons b rest ih =>
    intro last j bj h
    cases j with
    | zero =>
      rw [hierGo_cons, List.getElem?_cons_zero] at h
      exact ⟨last, b, by simp, (Option.some_inj.mp h).symm⟩
    | succ k =>
      rw [hierGo_cons, List.getElem?_cons_succ] at h
      obtain ⟨pl, xj, hx, hb⟩ := ih (some (hierStep fs last b)) k bj h
      exact ⟨pl, xj, by simpa using hx, hb⟩

theorem hierGo_succ (fs : List ℚ) :
    ∀ (l : List TextBlock) (last : Option TextBlock) (j : Nat)
      (bj bj1 xj1 : TextBlock),
      (hierGo fs last l)[j]? = some bj →
      (hierGo fs last l)[j + 1]? = some bj1 →
      l[j + 1]? = some xj1 →
      bj1 = hierStep fs (some bj) xj1 := by
  intro l
  induction l with
  | nil => intro last j bj bj1 xj1 h1 h2 h3; simp [hierGo] at h1
  | cons b rest ih =>
    intro last j bj bj1 xj1 h1 h2 h3
    cases j with
    | zero =>
      rw [hierGo_cons, List.getElem?_cons_zero] at h1
      have hb : bj = hierStep fs last b := (Option.some_inj.mp h1).symm
      rw [hierGo_cons, List.getElem?_cons_succ, hierGo_zero] at h2
      rw [List.getElem?_cons_succ] at h3
      rw [h3] at h2
      have h4 := Option.some_inj.mp h2
      rw [← h4, hb]
    | succ k =>
      rw [hierGo_cons, List.getElem?_cons_succ] at h1 h2
      rw [List.getElem?_cons_succ] at h3
      exact ih (some (hierStep fs last b)) k bj bj1 xj1 h1 h2 h3

theorem hierGo_length (fs : List ℚ) :
    ∀ (l : List TextBlock) (last : Option TextBlock),
      (hierGo fs last l).length = l.length := by
  intro l
  induction l with
  | nil => intro last; rfl
  | cons b rest ih =>
    intro last
    rw [hierGo_cons, List.length_cons, List.length_cons, ih]

/-- C5: processed in reading order (the `(y0, x0)`-sorted order), each
block's level is the rank of its font size in the page's descending list
of distinct sizes, reduced by one (floored at 0) for bold text; when a
block's left edge is more than 5 units right of the immediately preceding
block's left edge, its level becomes the preceding block's level plus one
and its parent is the preceding block, otherwise its parent is null. -/
theorem infer_hierarchy_spec (blocks : List TextBlock) (hne : blocks ≠ []) :
    (inferHierarchy blocks).length = (stableSort leYX blocks).length ∧
    (∀ b0 s0,
      (inferHierarchy blocks)[0]? = some b0 →
      (stableSort leYX blocks)[0]? = some s0 →
      b0.level = rankLevel (fontSizesOf (stableSort leYX blocks)) s0 ∧
      b0.parent_id = none) ∧
    (∀ j bj bj1 sj sj1,
      (inferHierarchy blocks)[j]? = some bj →
      (inferHierarchy blocks)[j + 1]? = some bj1 →
      (stableSort leYX blocks)[j]? = some sj →
      (stableSort leYX blocks)[j + 1]? = some sj1 →
      (sj1.x0 > sj.x0 + 5 →
        bj1.level = bj.level + 1 ∧ bj1.parent_id = some sj.id) ∧
      (¬ sj1.x0 > sj.x0 + 5 →
        bj1.level = rankLevel (fontSizesOf (stableSort leYX blocks)) sj1 ∧
        bj1.parent_id = none)) := by
  have hinf : inferHierarchy blocks =
      hierGo (fontSizesOf (stableSort leYX blocks)) none (stableSort leYX blocks) := by
    unfold inferHierarchy
    rw [if_neg (by simp [hne])]
  refine ⟨?_, ?_, ?_⟩
  · rw [hinf, hierGo_length]
  · intro b0 s0 hb0 hs0
    rw [hinf, hierGo_zero, hs0] at hb0
    have hb : b0 = hierStep (fontSizesOf (stableSort leYX blocks)) none s0 :=
      (Option.some_inj.mp hb0).symm
    rw [hb]
    exact ⟨rfl, rfl⟩
  · intro j bj bj1 sj sj1 hbj hbj1 hsj hsj1
    rw [hinf] at hbj hbj1
    have hb1 := hierGo_succ (fontSizesOf (stableSort leYX blocks))
      (stableSort leYX blocks) none j bj bj1 sj1 hbj hbj1 hsj1
    obtain ⟨pl, xj, hxj, hbjstep⟩ := hierGo_is_step (fontSizesOf (stableSort leYX blocks))
      (stableSort leYX blocks) none j bj hbj
    have hxjs : xj = sj := Option.some_inj.mp (hxj ▸ hsj)
    have hbx : bj.x0 = sj.x0 := by rw [hbjstep, hierStep_x0, hxjs]
    have hbid : bj.id = sj.id := by rw [hbjstep, hierStep_id, hxjs]
    constructor
    · intro hgt
      have hgt2 : sj1.x0 > bj.x0 + 5 := by rw [hbx]; exact hgt
      rw [hb1]
      unfold hierStep
      dsimp only
      rw [if_pos hgt2]
      exact ⟨rfl, by rw [hbid]⟩
    · intro hle
      have hle2 : ¬ sj1.x0 > bj.x0 + 5 := by rw [hbx]; exact hle
      rw [hb1]
      unfold hierStep
      dsimp only
      rw [if_neg hle2]
      exact ⟨rfl, rfl⟩

/-- Witness for C5: on a concrete two-block page the indented second
block gets level `parent.level + 1` and the first block as parent. -/
theorem infer_hierarchy_spec_witness :
    (⟨"b2", "Child", 20, 20, 60, 30, "F", false, 10, [], 1, some "b1", []⟩ :
        TextBlock).level =
      (⟨"b1", "Heading", 0, 0, 50, 10, "F", false, 12, [], 0, none, []⟩ :
        TextBlock).level + 1 ∧
    (⟨"b2", "Child", 20, 20, 60, 30, "F", false, 10, [], 1, some "b1", []⟩ :
        TextBlock).parent_id =
      some (⟨"b1", "Heading", 0, 0, 50, 10, "F", false, 12, [], 0, none, []⟩ :
        TextBlock).id :=
  ((infer_hierarchy_spec
      [⟨"b1", "Heading", 0, 0, 50, 10, "F", false, 12, [], 0, none, []⟩,
       ⟨"b2", "Child", 20, 20, 60, 30, "F", false, 10, [], 0, none, []⟩]
      (by simp)).2.2 0
    ⟨"b1", "Heading", 0, 0, 50, 10, "F", false, 12, [], 0, none, []⟩
    ⟨"b2", "Child", 20, 20, 60, 30, "F", false, 10, [], 1, some "b1", []⟩
    ⟨"b1", "Heading", 0, 0, 50, 10, "F", false, 12, [], 0, none, []⟩
    ⟨"b2", "Child", 20, 20, 60, 30, "F", false, 10, [], 0, none, []⟩
    (by with_unfolding_all decide) (by with_unfolding_all decide)
    (by with_unfolding_all decide) (by with_unfolding_all decide)).1
    (by with_unfolding_all decide)

/-! ## Claim C7: filename sanitization -/

theorem wordHyphen_not_space {c : Char} (h : pyIsWord c = true ∨ c = '-') :
    pyIsSpace c = false := by
  rcases h with h | h
  · simp only [pyIsWord, Bool.or_eq_true, Bool.and_eq_true,
      decide_eq_true_eq] at h
    simp only [pyIsSpace, pyIsSpaceCode, Bool.or_eq_false_iff,
      Bool.and_eq_false_iff, decide_eq_false_iff_not]
    omega
  · subst h
    decide

theorem replPathUnsafe_keep {c : Char} (h : pyIsWord c = true ∨ c = '-') :
    replPathUnsafe c = c := by
  unfold replPathUnsafe
  by_cases hc : (c = '<' || c = '>' || c = ':' || c = '"' || c = '/' ||
      c = '\\' || c = '|' || c = '?' || c = '*') = true
  · exfalso
    simp only [Bool.or_eq_true, decide_eq_true_eq] at hc
    rcases hc with ((((((((hc | hc) | hc) | hc) | hc) | hc) | hc) | hc) | hc) <;>
      subst hc <;> revert h <;> decide
  · rw [if_neg hc]

theorem replNonWord_keep {c : Char} (h : pyIsWord c = true ∨ c = '-') :
    replNonWord c = c := by
  unfold replNonWord
  rcases h with h | h
  · rw [if_pos (by simp [h])]
  · rw [if_pos (by simp [h])]

theorem replPathUnsafe_cases (c : Char) :
    replPathUnsafe c = c ∨ replPathUnsafe c = '_' := by
  unfold replPathUnsafe
  by_cases hc : (c = '<' || c = '>' || c = ':' || c = '"' || c = '/' ||
      c = '\\' || c = '|' || c = '?' || c = '*') = true
  · rw [if_pos hc]; exact Or.inr rfl
  · rw [if_neg hc]; exact Or.inl rfl

theorem replNonWord_cases (c : Char) :
    replNonWord c = c ∨ replNonWord c = '_' := by
  unfold replNonWord
  by_cases hc : (pyIsWord c || pyIsSpace c || c = '-') = true
  · rw [if_pos hc]; exact Or.inl rfl
  · rw [if_neg hc]; exact Or.inr rfl

theorem map_eq_self_of {α : Type} {l : List α} {f : α → α} (h : ∀ c ∈ l, f c = c) :
    l.map f = l := by
  induction l with
  | nil => rfl
  | cons a as ih =>
    rw [List.map_cons, h a (by simp), ih (fun c hc => h c (List.mem_cons_of_mem _ hc))]

theorem filter_eq_self_of {α : Type} {l : List α} {q : α → Bool} (h : ∀ c ∈ l, q c = true) :
    l.filter q = l := by
  induction l with
  | nil => rfl
  | cons a as ih =>
    rw [List.filter_cons_of_pos (h a (by simp)),
      ih (fun c hc => h c (List.mem_cons_of_mem _ hc))]

theorem lastSat_false_of_none {α : Type} {p : α → Bool} :
    ∀ {l : List α}, (∀ c ∈ l, p c = false) → lastSat p l = false := by
  intro l
  induction l with
  | nil => intro _; rfl
  | cons a as ih =>
    intro h
    cases as with
    | nil => exact h a (by simp)
    | cons b bs =>
      rw [lastSat_cons (by simp)]
      exact ih (fun c hc => h c (List.mem_cons_of_mem _ hc))

theorem dropWhile_eq_self_of_head {α : Type} {p : α → Bool} {l : List α}
    (h : headSat p l = false) : l.dropWhile p = l := by
  cases l with
  | nil => rfl
  | cons a as =>
    simp only [headSat] at h
    rw [List.dropWhile_cons_of_neg (by simp [h])]

/-- C7 counterexample: sanitization is not idempotent.  For the input
"a _ b" one application gives "a___b" (the space-to-underscore step runs
after underscore runs were collapsed), a second application gives "a_b". -/
theorem sanitize_not_idempotent :
    sanitizeFilenameChars (sanitizeFilenameChars "a _ b".data) ≠
      sanitizeFilenameChars "a _ b".data := by decide

theorem mem_collapseRuns {α : Type} {p : α → Bool} {rep c : α} {l : List α}
    (h : c ∈ collapseRuns p rep l) : c = rep ∨ (c ∈ l ∧ p c = false) :=
  mem_collapseAux h

theorem collapseRuns_eq_self_of_none {α : Type} {p : α → Bool} {rep : α}
    {l : List α} (h : ∀ c ∈ l, p c = false) : collapseRuns p rep l = l :=
  collapseAux_eq_self_of_none h false

theorem sanitizeStage2_space {l : List Char} {x : Char}
    (hx : x ∈ sanitizeStage2 l) (hs : pyIsSpace x = true) : x = ' ' := by
  unfold sanitizeStage2 at hx
  have hx1 := List.mem_of_mem_filter hx
  rcases mem_collapseRuns hx1 with h | h
  · exact h
  · rw [h.2] at hs
    cases hs

theorem sanitizeStage4_mem {l : List Char} {x : Char}
    (hx : x ∈ sanitizeStage4 l) :
    pyIsWord x = true ∨ x = '-' ∨ x = ' ' := by
  unfold sanitizeStage4 at hx
  obtain ⟨x3, hx3, hrepl⟩ := List.mem_map.mp hx
  obtain ⟨x2, hx2, hrepl2⟩ := List.mem_map.mp hx3
  have hsp3 : pyIsSpace x3 = true → x3 = ' ' := by
    intro hs
    rcases replPathUnsafe_cases x2 with h | h
    · rw [hrepl2] at h
      rw [← h] at hx2
      exact sanitizeStage2_space hx2 hs
    · rw [hrepl2] at h
      rw [h] at hs
      cases hs
  by_cases hcond : (pyIsWord x3 || pyIsSpace x3 || decide (x3 = '-')) = true
  · have hxx3 : x = x3 := by
      rw [← hrepl]
      unfold replNonWord
      rw [if_pos hcond]
    subst hxx3
    simp only [Bool.or_eq_true, decide_eq_true_eq] at hcond
    rcases hcond with (h | h) | h
    · exact Or.inl h
    · exact Or.inr (Or.inr (hsp3 h))
    · exact Or.inr (Or.inl h)
  · have hxu : x = '_' := by
      rw [← hrepl]
      unfold replNonWord
      rw [if_neg hcond]
    exact Or.inl (by rw [hxu]; decide)

theorem sanitizeStage6_mem {l : List Char} {x : Char}
    (hx : x ∈ sanitizeStage6 l) :
    pyIsWord x = true ∨ x = '-' := by
  unfold sanitizeStage6 at hx
  obtain ⟨x5, hx5, hfx⟩ := List.mem_map.mp hx
  by_cases hsp : x5 = ' '
  · rw [if_pos hsp] at hfx
    exact Or.inl (by rw [← hfx]; decide)
  · rw [if_neg hsp] at hfx
    subst hfx
    rcases mem_collapseRuns hx5 with h | h
    · exact Or.inl (by rw [h]; decide)
    · rcases sanitizeStage4_mem h.1 with h2 | h2 | h2
      · exact Or.inl h2
      · exact Or.inr h2
      · exact absurd h2 hsp

/-- The output of `_sanitize_filename` is non-empty, at most 50
characters, and consists of word characters and hyphens only. -/
theorem sanitize_output_inv (l : List Char) :
    sanitizeFilenameChars l ≠ [] ∧
    (sanitizeFilenameChars l).length ≤ 50 ∧
    ∀ c ∈ sanitizeFilenameChars l, pyIsWord c = true ∨ c = '-' := by
  unfold sanitizeFilenameChars
  by_cases hl : l.isEmpty = true
  · rw [if_pos hl]
    refine ⟨by decide, by decide, ?_⟩
    decide
  · rw [if_neg hl]
    by_cases hr : (sanitizeCore l).isEmpty = true
    · rw [if_pos hr]
      refine ⟨by decide, by decide, ?_⟩
      decide
    · rw [if_neg hr]
      refine ⟨by simpa using hr, ?_, ?_⟩
      · unfold sanitizeCore
        rw [List.length_take]
        exact min_le_left _ _
      · intro c hc
        unfold sanitizeCore at hc
        have hc2 := List.take_subset _ _ hc
        exact sanitizeStage6_mem (mem_stripBoth hc2)

/-- On a word/hyphen-only input the first four sanitization stages are
the identity, so the core pipeline is underscore-collapse, underscore-
strip, truncate. -/
theorem sanitizeCore_on_clean {y : List Char}
    (hy : ∀ c ∈ y, pyIsWord c = true ∨ c = '-') :
    sanitizeCore y =
      (stripTrail isUnd ((collapseRuns isUnd '_' y).dropWhile isUnd)).take 50 := by
  have hnws : ∀ c ∈ y, pyIsSpace c = false := fun c hc => wordHyphen_not_space (hy c hc)
  have h1 : stripBoth pyIsSpace y = y := by
    unfold stripBoth stripLead
    rw [dropWhile_eq_self_of_none hnws]
    exact stripTrail_eq_self (lastSat_false_of_none hnws)
  have h2 : sanitizeStage2 y = y := by
    unfold sanitizeStage2
    rw [h1]
    rw [collapseRuns_eq_self_of_none hnws]
    refine filter_eq_self_of ?_
    intro c hc
    have hcs := hnws c hc
    have hn : ¬ c = '\n' := fun he => by rw [he] at hcs; cases hcs
    have hrr : ¬ c = '\r' := fun he => by rw [he] at hcs; cases hcs
    have ht : ¬ c = '\t' := fun he => by rw [he] at hcs; cases hcs
    simp [hn, hrr, ht]
  have h4 : sanitizeStage4 y = y := by
    unfold sanitizeStage4
    rw [h2]
    rw [map_eq_self_of (fun c hc => replPathUnsafe_keep (hy c hc))]
    exact map_eq_self_of (fun c hc => replNonWord_keep (hy c hc))
  have h6 : sanitizeStage6 y = collapseRuns isUnd '_' y := by
    unfold sanitizeStage6
    rw [h4]
    refine map_eq_self_of ?_
    intro c hc
    have hne : ¬ c = ' ' := by
      rcases mem_collapseRuns hc with h | h
      · rw [h]; decide
      · rcases hy c h.1 with h2 | h2
        · intro he; rw [he] at h2; cases h2
        · intro he; rw [he] at h2; cases h2
    rw [if_neg hne]
  unfold sanitizeCore
  rw [h6]
  rfl

/-- A word/hyphen string with no underscore runs, no boundary underscore
and length at most 50 is a fixed point of `_sanitize_filename`. -/
theorem sanitize_fixed_point {y : List Char} (hne : y ≠ [])
    (hy : ∀ c ∈ y, pyIsWord c = true ∨ c = '-')
    (hlen : y.length ≤ 50)
    (hadj : noAdjB isUnd y = true)
    (hhead : headSat isUnd y = false)
    (hlast : lastSat isUnd y = false) :
    sanitizeFilenameChars y = y := by
  have hcore : sanitizeCore y = y := by
    rw [sanitizeCore_on_clean hy]
    have hcol : collapseRuns isUnd '_' y = y :=
      (collapseAux_eq_self (fun c hc => by simpa [isUnd] using hc) y hadj).1
    rw [hcol, dropWhile_eq_self_of_head hhead, stripTrail_eq_self hlast]
    exact List.take_of_length_le hlen
  unfold sanitizeFilenameChars
  rw [if_neg (by simpa using hne), hcore, if_neg (by simpa using hne)]

/-- Applying `_sanitize_filename` to a word/hyphen string of length at
most 50 produces a string with no underscore runs and no boundary
underscore. -/
theorem sanitize_second_inv {y : List Char} (hne : y ≠ [])
    (hy : ∀ c ∈ y, pyIsWord c = true ∨ c = '-')
    (hlen : y.length ≤ 50) :
    noAdjB isUnd (sanitizeFilenameChars y) = true ∧
    headSat isUnd (sanitizeFilenameChars y) = false ∧
    lastSat isUnd (sanitizeFilenameChars y) = false := by
  have hcore : sanitizeCore y =
      stripTrail isUnd ((collapseRuns isUnd '_' y).dropWhile isUnd) := by
    rw [sanitizeCore_on_clean hy]
    refine List.take_of_length_le ?_
    calc (stripTrail isUnd ((collapseRuns isUnd '_' y).dropWhile isUnd)).length
        ≤ ((collapseRuns isUnd '_' y).dropWhile isUnd).length := length_stripTrail
      _ ≤ (collapseRuns isUnd '_' y).length := length_dropWhile_le _
      _ ≤ y.length := length_collapseAux
      _ ≤ 50 := hlen
  have hadjc : noAdjB isUnd (collapseRuns isUnd '_' y) = true :=
    (collapseAux_noAdj y).1
  have hadjd : noAdjB isUnd ((collapseRuns isUnd '_' y).dropWhile isUnd) = true :=
    noAdjB_dropWhile hadjc
  have hheadd : headSat isUnd ((collapseRuns isUnd '_' y).dropWhile isUnd) = false :=
    headSat_dropWhile_self _
  unfold sanitizeFilenameChars
  rw [if_neg (by simpa using hne)]
  by_cases hr : (sanitizeCore y).isEmpty = true
  · rw [if_pos hr]
    exact ⟨by decide, by decide, by decide⟩
  · rw [if_neg hr]
    rw [hcore] at hr ⊢
    refine ⟨stripTrail_noAdj hadjd, headSat_stripTrail hheadd, ?_⟩
    exact stripTrail_lastSat (by simpa using hr)

/-- C7 amended: sanitization is not idempotent (see
`sanitize_not_idempotent`), but a second application reaches a fixed
point: for every string, sanitizing three times equals sanitizing
twice. -/
theorem sanitize_triple_application (l : List Char) :
    sanitizeFilenameChars (sanitizeFilenameChars (sanitizeFilenameChars l)) =
      sanitizeFilenameChars (sanitizeFilenameChars l) := by
  obtain ⟨hne1, hlen1, hchars1⟩ := sanitize_output_inv l
  obtain ⟨hadj2, hhead2, hlast2⟩ := sanitize_second_inv hne1 hchars1 hlen1
  obtain ⟨hne2, hlen2, hchars2⟩ := sanitize_output_inv (sanitizeFilenameChars l)
  exact sanitize_fixed_point hne2 hchars2 hlen2 hadj2 hhead2 hlast2

/-! ## Claim C10: reconstruction-side text cleaning -/

/-- C10 counterexample: the cleaned text can contain a control character.
DEL (code 127) is in Unicode category Cc but is neither below 32 nor a
surrogate, so `clean_text_for_pdf` keeps it. -/
theorem clean_text_keeps_del :
    127 ∈ cleanTextForPdf [97, 127, 98] ∧ isControlCode 127 = true := by decide

theorem cleanTextForPdf_eq (text : List Nat) (h : ¬ text.isEmpty = true) :
    cleanTextForPdf text =
      stripBoth pyIsSpaceCode (collapseRuns pyIsSpaceCode 32
        ((text.filter (fun c => decide (c ≠ 0))).filter cleanKeepCode)) := by
  unfold cleanTextForPdf
  rw [if_neg h]

/-- C10 amended: for every input, the cleaned text contains no NUL, no
surrogate code point and no C0 control character (control characters at
or above 0x7F — DEL and the C1 range — can survive, see
`clean_text_keeps_del`); its only whitespace character is the plain
space, no two adjacent characters are whitespace, and it neither starts
nor ends with whitespace — so internal newlines never survive. -/
theorem clean_text_amended (text : List Nat) :
    ((cleanTextForPdf text).all
      (fun c => !decide (c = 0) && !isSurrogateCode c && !decide (c < 32) &&
                (!pyIsSpaceCode c || decide (c = 32)))) = true ∧
    noAdjB pyIsSpaceCode (cleanTextForPdf text) = true ∧
    headSat pyIsSpaceCode (cleanTextForPdf text) = false ∧
    lastSat pyIsSpaceCode (cleanTextForPdf text) = false := by
  by_cases hte : text.isEmpty = true
  · have he : cleanTextForPdf text = [] := by
      unfold cleanTextForPdf
      rw [if_pos hte]
    rw [he]
    exact ⟨rfl, rfl, rfl, rfl⟩
  · rw [cleanTextForPdf_eq text hte]
    have hadjc : noAdjB pyIsSpaceCode (collapseRuns pyIsSpaceCode 32
        ((text.filter (fun c => decide (c ≠ 0))).filter cleanKeepCode)) = true :=
      (collapseAux_noAdj _).1
    refine ⟨?_, ?_, ?_, ?_⟩
    · rw [List.all_eq_true]
      intro c hc
      have hc3 := mem_stripBoth hc
      rcases mem_collapseRuns hc3 with h | h
      · subst h
        decide
      · obtain ⟨hmem, hsp⟩ := h
        have hk := List.mem_filter.mp hmem
        have hnz := List.mem_filter.mp hk.1
        have hkeep := hk.2
        have hnz2 : ¬ c = 0 := by simpa using hnz.2
        simp only [cleanKeepCode, Bool.and_eq_true, Bool.not_eq_true',
          Bool.and_eq_false_iff, decide_eq_false_iff_not, not_lt,
          Bool.not_eq_eq_eq_not, Bool.not_true, Bool.or_eq_false_iff,
          decide_eq_true_eq] at hkeep
        have hsur : isSurrogateCode c = false := hkeep.1
        have hge : ¬ c < 32 := by
          intro hlt
          rcases hkeep.2 with h32 | h913
          · omega
          · have h913b : (c = 9 ∨ c = 10) ∨ c = 13 := by simpa using h913
            have : pyIsSpaceCode c = true := by
              rcases h913b with (h2 | h2) | h2 <;> subst h2 <;> decide
            rw [this] at hsp
            cases hsp
        simp [hnz2, hsur, hge, hsp]
    · unfold stripBoth stripLead
      exact stripTrail_noAdj (noAdjB_dropWhile hadjc)
    · unfold stripBoth stripLead
      exact headSat_stripTrail (headSat_dropWhile_self _)
    · by_cases hres : stripBoth pyIsSpaceCode (collapseRuns pyIsSpaceCode 32
          ((text.filter (fun c => decide (c ≠ 0))).filter cleanKeepCode)) = []
      · rw [hres]
        rfl
      · unfold stripBoth stripLead at hres ⊢
        exact stripTrail_lastSat hres

/-! ## Claim C4: reconstruction-side text suppression -/

/-- C4 counterexample: the "suppressed iff overlapping" biconditional
fails as stated — a text block with empty text is not drawn even though
its bbox overlaps no rendered table, cell or image box. -/
theorem render_suppression_not_iff :
    renderTextEnhanced [⟨[], 200, 200, 210, 210⟩] [⟨0, 0, 50, 50⟩] [] [] = [] ∧
    insideAnyBox [⟨0, 0, 50, 50⟩] [] [] 200 200 210 210 = false := by
  with_unfolding_all decide

/-- C4 amended: for a text block whose raw text is non-empty and whose
cleaned text is non-empty, suppression is equivalent to the bbox
overlapping (within the margin of 1.0) some rendered table box, cell box
or image box; blocks with empty raw or cleaned text are always
suppressed.  In particular a block overlapping a rendered table's bbox is
omitted while the table boxes themselves are untouched. -/
theorem render_suppression_iff (blocks : List JBlock)
    (tb cb ib : List BBox) (b : JBlock)
    (hmem : b ∈ blocks)
    (htext : b.text ≠ [])
    (hclean : cleanTextForPdf b.text ≠ []) :
    b ∉ renderTextEnhanced blocks tb cb ib ↔
      insideAnyBox tb cb ib b.x0 b.y0 b.x1 b.y1 = true := by
  unfold renderTextEnhanced
  constructor
  · intro hnot
    by_contra hin
    apply hnot
    rw [List.mem_filter]
    refine ⟨hmem, ?_⟩
    simp only [Bool.and_eq_true, Bool.not_eq_eq_eq_not, Bool.not_true]
    refine ⟨⟨?_, ?_⟩, ?_⟩
    · simpa [List.isEmpty_iff] using htext
    · simpa using hin
    · simpa [List.isEmpty_iff] using hclean
  · intro hin hmemf
    rw [List.mem_filter] at hmemf
    have hp := hmemf.2
    rw [hin] at hp
    simp at hp

/-- Witness for C4: a concrete block with text overlapping a concrete
table box is suppressed. -/
theorem render_suppression_iff_witness :
    (⟨[72, 105], 10, 10, 20, 20⟩ : JBlock) ∉
      renderTextEnhanced [⟨[72, 105], 10, 10, 20, 20⟩] [⟨0, 0, 100, 100⟩] [] [] :=
  (render_suppression_iff [⟨[72, 105], 10, 10, 20, 20⟩] [⟨0, 0, 100, 100⟩] [] []
      ⟨[72, 105], 10, 10, 20, 20⟩ (by simp) (by decide) (by decide)).mpr
    (by with_unfolding_all decide)

/-! ## Claim C9: OCR failure containment -/

/-- C9: `extract_text_ocr` catches every internal OCR failure and
returns the empty string, and on a page where the primary path produced
no merged blocks a failing OCR leaves the page recorded with an empty
`text_blocks` list and empty text instead of propagating the failure
(the embedded pipeline is a total function of the failure value). -/
theorem ocr_failure_contained (e : String) (pageNum : Nat) (w h : ℚ)
    (tableBboxes : List BBox) (raw : List RawBlock)
    (hmerged : stableSort leRoundedYX
      (mergeTextBlocks (assembleRawBlocks pageNum tableBboxes 0 raw)) = []) :
    extractTextOcr (Except.error e) = "" ∧
    (extractTextEnhanced pageNum w h tableBboxes raw (Except.error e)).1 = [] ∧
    (extractTextEnhanced pageNum w h tableBboxes raw (Except.error e)).2 = "" := by
  have hval : extractTextEnhanced pageNum w h tableBboxes raw (Except.error e) =
      ([], "") := by
    unfold extractTextEnhanced
    dsimp only
    rw [hmerged]
    rfl
  exact ⟨rfl, by rw [hval], by rw [hval]⟩

/-- Witness for C9: a concrete page with no raw blocks and a failing OCR
engine yields the empty page. -/
theorem ocr_failure_contained_witness :
    extractTextOcr (Except.error "ocr engine crashed") = "" ∧
    (extractTextEnhanced 1 600 800 [] [] (Except.error "ocr engine crashed")).1 = [] ∧
    (extractTextEnhanced 1 600 800 [] [] (Except.error "ocr engine crashed")).2 = "" :=
  ocr_failure_contained "ocr engine crashed" 1 600 800 [] [] (by decide)

/-! ## Claim C1: in-table text exclusion -/

/-- C1: contrary to the claim, a text block lying fully inside a detected
table's bbox does appear in the page's `text_blocks`.  The assembler's
filter would discard it if the table bboxes were known (third conjunct),
but `extract` runs text extraction before table detection, so the filter
sees an empty table list (the page starts with `tables = []`), and the
block survives into `text_blocks` while the same table is present in the
page's `tables` (first two conjuncts). -/
theorem table_text_not_excluded :
    ((extractPage 1 600 800 [rawBlockInsideTable] [detTableC1]
        (Except.ok "")).text_blocks.any
      (fun b => decide (b.text = "inside") &&
        isInsideBbox ⟨b.x0, b.y0, b.x1, b.y1⟩ ⟨0, 0, 100, 100⟩)) = true ∧
    (extractPage 1 600 800 [rawBlockInsideTable] [detTableC1]
        (Except.ok "")).tables.map (fun t => t.bbox) = [⟨0, 0, 100, 100⟩] ∧
    (extractTextEnhanced 1 600 800 [⟨0, 0, 100, 100⟩] [rawBlockInsideTable]
        (Except.ok "")).1 = [] := by
  with_unfolding_all decide

end JsonVal
